import Mathlib

/-!
Verification of the Othello game-tree search engine (`agent.py`).

The engine consists of minimax and alpha-beta node functions over an abstract
game-rules adapter (`get_possible_moves`, `play_move`, `get_score`), a static
utility evaluator, a move orderer, and a transposition cache.  We embed the
search core shallowly: the external rules adapter becomes a `Rules` structure
(with a finiteness measure standing for the finite game tree it supplies),
the global cache becomes explicit state threaded through the node functions,
and Python's numeric values (integers together with `math.inf` / `-math.inf`)
become the type `XVal` below.
-/

namespace Othello

/-- Python numeric values used by the search: integers plus `math.inf` and
`-math.inf` used as initial accumulator values and alpha-beta window bounds. -/
inductive XVal where
  | negInf : XVal
  | fin (z : Int) : XVal
  | posInf : XVal
deriving DecidableEq, Repr

/-- Python `a < b` on `XVal`. -/
def XVal.blt : XVal → XVal → Bool
  | .posInf, _ => false
  | _, .posInf => true
  | .negInf, .negInf => false
  | .negInf, .fin _ => true
  | .fin _, .negInf => false
  | .fin a, .fin b => decide (a < b)

/-- Python `a <= b` on `XVal`. -/
def XVal.ble : XVal → XVal → Bool
  | .negInf, _ => true
  | _, .negInf => false
  | .fin a, .fin b => decide (a ≤ b)
  | _, .posInf => true
  | .posInf, .fin _ => false

/-- Python `max(a, b)`: returns the first argument on ties. -/
def XVal.bmax (a b : XVal) : XVal := if XVal.ble b a then a else b

/-- Python `min(a, b)`: returns the first argument on ties. -/
def XVal.bmin (a b : XVal) : XVal := if XVal.ble a b then a else b

/-- Maximum of `f` over a list, starting from `-inf`. -/
def supList {α : Type} (f : α → XVal) : List α → XVal
  | [] => XVal.negInf
  | x :: xs => XVal.bmax (f x) (supList f xs)

/-- Minimum of `f` over a list, starting from `+inf`. -/
def infList {α : Type} (f : α → XVal) : List α → XVal
  | [] => XVal.posInf
  | x :: xs => XVal.bmin (f x) (infList f xs)

/-- Stable insertion used to model Python's `list.sort`: `x` is placed before
the first element `y` it strictly beats under `bt`, after equals. -/
def insertSorted {α : Type} (bt : α → α → Bool) (x : α) : List α → List α
  | [] => [x]
  | y :: ys => if bt x y then x :: y :: ys else y :: insertSorted bt x ys

/-- Stable sort modelling Python's `list.sort(key=..., reverse=...)`: elements
are inserted left to right, each after existing ties. -/
def pySort {α : Type} (bt : α → α → Bool) (xs : List α) : List α :=
  xs.foldl (fun acc x => insertSorted bt x acc) []

section Search

/-- The external game-rules adapter of `othello_shared` (spec section 6):
legal-move enumeration, move application, and disk counts, together with a
measure witnessing that the game tree it supplies is finite (every legal move
strictly shrinks the remaining game, as disk placement does in Othello). -/
structure Rules (B : Type) where
  get_possible_moves : B → Nat → List (Nat × Nat)
  play_move : B → Nat → Nat → Nat → B
  get_score : B → Int × Int
  mes : B → Nat
  mes_lt : ∀ b c m, m ∈ get_possible_moves b c →
    mes (play_move b c m.1 m.2) < mes b

variable {B : Type}

/-- A move: a pair of zero-based board coordinates. -/
abbrev Mv : Type := Nat × Nat

/-- A search node result: (best move found or the null sentinel, value). -/
abbrev Res : Type := Option Mv × XVal

/-- The transposition cache, modelling the global Python dict `cache`:
an association list from boards to node results, most recent entry first. -/
abbrev Cache (B : Type) : Type := List (B × Res)

/-- Dictionary lookup `cache[board]` / `board in cache`. -/
def lookupC [DecidableEq B] : Cache B → B → Option Res
  | [], _ => none
  | (b', r) :: rest, b => if b = b' then some r else lookupC rest b

/-- Dictionary update `cache[board] = r` (later entries shadow earlier). -/
def insertC (cch : Cache B) (b : B) (r : Res) : Cache B := (b, r) :: cch

/-- Function `compute_utility(board, color)` from `agent.py`: disk-count difference
from the perspective of `color` (color 1 gets `count1 - count2`). -/
def compute_utility (R : Rules B) (board : B) (color : Nat) : Int :=
  let util_raw := R.get_score board
  if color = 1 then util_raw.1 - util_raw.2 else util_raw.2 - util_raw.1

/-- The type of a minimax node function: board, root color, remaining limit,
caching flag, then the (global) cache in and out. -/
abbrev NodeFn (B : Type) : Type :=
  B → Nat → Int → Bool → Cache B → Res × Cache B

/-- The move loop of `minimax_min_node`: iterates over `poss_moves` keeping
the move of minimum utility, writing each child into the cache when caching. -/
def minimax_min_loop [DecidableEq B] (R : Rules B) (recMax : NodeFn B)
    (board : B) (self_color color : Nat) (limit : Int) (caching : Bool) :
    List Mv → Mv → XVal → Cache B → Res × Cache B
  | [], wrst, curr_wrst_util, cch => ((some wrst, curr_wrst_util), cch)
  | move :: rest, wrst, curr_wrst_util, cch =>
    let next_state := R.play_move board self_color move.1 move.2
    let out := recMax next_state color (limit - 1) caching cch
    let move_util := out.1.2
    let cch1 := if caching then insertC out.2 next_state (some move, move_util)
      else out.2
    let wrst' := if XVal.blt move_util curr_wrst_util then move else wrst
    let wu' := if XVal.blt move_util curr_wrst_util then move_util
      else curr_wrst_util
    minimax_min_loop R recMax board self_color color limit caching
      rest wrst' wu' cch1

/-- The move loop of `minimax_max_node`, keeping the move of maximum utility. -/
def minimax_max_loop [DecidableEq B] (R : Rules B) (recMin : NodeFn B)
    (board : B) (color : Nat) (limit : Int) (caching : Bool) :
    List Mv → Mv → XVal → Cache B → Res × Cache B
  | [], best, curr_best_util, cch => ((some best, curr_best_util), cch)
  | move :: rest, best, curr_best_util, cch =>
    let next_state := R.play_move board color move.1 move.2
    let out := recMin next_state color (limit - 1) caching cch
    let move_util := out.1.2
    let cch1 := if caching then insertC out.2 next_state (some move, move_util)
      else out.2
    let best' := if XVal.blt curr_best_util move_util then move else best
    let bu' := if XVal.blt curr_best_util move_util then move_util
      else curr_best_util
    minimax_max_loop R recMin board color limit caching rest best' bu' cch1

/-- Body of `minimax_min_node(board, color, limit, caching)` from `agent.py`,
with the mutual call to `minimax_max_node` abstracted as `recMax`. -/
def minimax_min_body [DecidableEq B] (R : Rules B) (recMax : NodeFn B)
    (board : B) (color : Nat) (limit : Int) (caching : Bool)
    (cch : Cache B) : Res × Cache B :=
  match (if caching then lookupC cch board else none) with
  | some r => (r, cch)
  | none =>
    let self_color := if color = 2 then 1 else 2
    let poss_moves := R.get_possible_moves board self_color
    if poss_moves = [] ∨ limit = 0 then
      ((none, XVal.fin (compute_utility R board color)), cch)
    else
      minimax_min_loop R recMax board self_color color limit caching
        poss_moves (0, 0) XVal.posInf cch

/-- Body of `minimax_max_node(board, color, limit, caching)` from `agent.py`,
with the mutual call to `minimax_min_node` abstracted as `recMin`. -/
def minimax_max_body [DecidableEq B] (R : Rules B) (recMin : NodeFn B)
    (board : B) (color : Nat) (limit : Int) (caching : Bool)
    (cch : Cache B) : Res × Cache B :=
  match (if caching then lookupC cch board else none) with
  | some r => (r, cch)
  | none =>
    let poss_moves := R.get_possible_moves board color
    if poss_moves = [] ∨ limit = 0 then
      ((none, XVal.fin (compute_utility R board color)), cch)
    else
      minimax_max_loop R recMin board color limit caching
        poss_moves (0, 0) XVal.negInf cch

/-- The mutually recursive pair `(minimax_max_node, minimax_min_node)`,
indexed by recursion fuel.  Each level calls the other function one level
down; the fuel only has to dominate the recursion depth, which the `Rules`
measure bounds, so the wrappers below seed it with `mes board + 1`. -/
def minimaxNodes [DecidableEq B] (R : Rules B) : Nat → NodeFn B × NodeFn B
  | 0 =>
    (fun board color _ _ cch =>
        ((none, XVal.fin (compute_utility R board color)), cch),
      fun board color _ _ cch =>
        ((none, XVal.fin (compute_utility R board color)), cch))
  | f + 1 =>
    (minimax_max_body R (minimaxNodes R f).2,
      minimax_min_body R (minimaxNodes R f).1)

/-- Function `minimax_max_node` of `agent.py` (the global cache passed explicitly). -/
def minimax_max_node [DecidableEq B] (R : Rules B) (board : B) (color : Nat)
    (limit : Int) (caching : Bool) (cch : Cache B) : Res × Cache B :=
  (minimaxNodes R (R.mes board + 1)).1 board color limit caching cch

/-- Function `minimax_min_node` of `agent.py` (the global cache passed explicitly). -/
def minimax_min_node [DecidableEq B] (R : Rules B) (board : B) (color : Nat)
    (limit : Int) (caching : Bool) (cch : Cache B) : Res × Cache B :=
  (minimaxNodes R (R.mes board + 1)).2 board color limit caching cch

/-- Function `select_move_minimax(board, color, limit, caching)`: clears the cache and
returns the move component of the root MAX node. -/
def select_move_minimax [DecidableEq B] (R : Rules B) (board : B)
    (color : Nat) (limit : Int) (caching : Bool) : Option Mv :=
  ((minimax_max_node R board color limit caching []).1).1

/-- Function `order_moves(board, color, max)` from `agent.py`: scores each legal move
of `color` by the utility of the resulting board from `mx`'s perspective and
sorts descending when `color == mx`, otherwise ascending (stable). -/
def order_moves (R : Rules B) (board : B) (color mx : Nat) : List Mv :=
  let poss_moves := R.get_possible_moves board color
  let moves := poss_moves.map fun move =>
    (move, compute_utility R (R.play_move board color move.1 move.2) mx)
  let sorted := if color = mx then
      pySort (fun x y : Mv × Int => decide (y.2 < x.2)) moves
    else
      pySort (fun x y : Mv × Int => decide (x.2 < y.2)) moves
  sorted.map fun p => p.1

/-- The type of an alpha-beta node function: board, root color, alpha, beta,
remaining limit, caching flag, ordering flag, then the cache in and out. -/
abbrev ABFn (B : Type) : Type :=
  B → Nat → XVal → XVal → Int → Bool → Bool → Cache B → Res × Cache B

/-- The move loop of `alphabeta_min_node`: keeps the minimum-utility move,
lowers `beta`, and breaks as soon as `beta <= alpha`. -/
def alphabeta_min_loop [DecidableEq B] (R : Rules B) (recMax : ABFn B)
    (board : B) (self_color color : Nat) (limit : Int)
    (caching ordering : Bool) :
    List Mv → Mv → XVal → XVal → XVal → Cache B → Res × Cache B
  | [], wrst, curr_wrst_util, _, _, cch => ((some wrst, curr_wrst_util), cch)
  | move :: rest, wrst, curr_wrst_util, alpha, beta, cch =>
    let next_state := R.play_move board self_color move.1 move.2
    let out := recMax next_state color alpha beta (limit - 1) caching
      ordering cch
    let move_util := out.1.2
    let cch1 := if caching then insertC out.2 next_state (some move, move_util)
      else out.2
    let wrst' := if XVal.blt move_util curr_wrst_util then move else wrst
    let wu' := if XVal.blt move_util curr_wrst_util then move_util
      else curr_wrst_util
    let beta' := XVal.bmin beta move_util
    if XVal.ble beta' alpha then ((some wrst', wu'), cch1)
    else alphabeta_min_loop R recMax board self_color color limit caching
      ordering rest wrst' wu' alpha beta' cch1

/-- The move loop of `alphabeta_max_node`: keeps the maximum-utility move,
raises `alpha`, and breaks as soon as `beta <= alpha`. -/
def alphabeta_max_loop [DecidableEq B] (R : Rules B) (recMin : ABFn B)
    (board : B) (color : Nat) (limit : Int) (caching ordering : Bool) :
    List Mv → Mv → XVal → XVal → XVal → Cache B → Res × Cache B
  | [], best, curr_best_util, _, _, cch => ((some best, curr_best_util), cch)
  | move :: rest, best, curr_best_util, alpha, beta, cch =>
    let next_state := R.play_move board color move.1 move.2
    let out := recMin next_state color alpha beta (limit - 1) caching
      ordering cch
    let move_util := out.1.2
    let cch1 := if caching then insertC out.2 next_state (some move, move_util)
      else out.2
    let best' := if XVal.blt curr_best_util move_util then move else best
    let bu' := if XVal.blt curr_best_util move_util then move_util
      else curr_best_util
    let alpha' := XVal.bmax alpha move_util
    if XVal.ble beta alpha' then ((some best', bu'), cch1)
    else alphabeta_max_loop R recMin board color limit caching ordering
      rest best' bu' alpha' beta cch1

/-- Body of `alphabeta_min_node(board, color, alpha, beta, limit, caching,
ordering)` from `agent.py`, with the mutual call abstracted as `recMax`. -/
def alphabeta_min_body [DecidableEq B] (R : Rules B) (recMax : ABFn B)
    (board : B) (color : Nat) (alpha beta : XVal) (limit : Int)
    (caching ordering : Bool) (cch : Cache B) : Res × Cache B :=
  match (if caching then lookupC cch board else none) with
  | some r => (r, cch)
  | none =>
    let self_color := if color = 2 then 1 else 2
    let poss_moves := if ordering then order_moves R board self_color color
      else R.get_possible_moves board self_color
    if poss_moves = [] ∨ limit = 0 then
      ((none, XVal.fin (compute_utility R board color)), cch)
    else
      alphabeta_min_loop R recMax board self_color color limit caching
        ordering poss_moves (0, 0) XVal.posInf alpha beta cch

/-- Body of `alphabeta_max_node(board, color, alpha, beta, limit, caching,
ordering)` from `agent.py`, with the mutual call abstracted as `recMin`. -/
def alphabeta_max_body [DecidableEq B] (R : Rules B) (recMin : ABFn B)
    (board : B) (color : Nat) (alpha beta : XVal) (limit : Int)
    (caching ordering : Bool) (cch : Cache B) : Res × Cache B :=
  match (if caching then lookupC cch board else none) with
  | some r => (r, cch)
  | none =>
    let poss_moves := if ordering then order_moves R board color color
      else R.get_possible_moves board color
    if poss_moves = [] ∨ limit = 0 then
      ((none, XVal.fin (compute_utility R board color)), cch)
    else
      alphabeta_max_loop R recMin board color limit caching ordering
        poss_moves (0, 0) XVal.negInf alpha beta cch

/-- The mutually recursive pair `(alphabeta_max_node, alphabeta_min_node)`,
indexed by recursion fuel as for `minimaxNodes`. -/
def alphabetaNodes [DecidableEq B] (R : Rules B) : Nat → ABFn B × ABFn B
  | 0 =>
    (fun board color _ _ _ _ _ cch =>
        ((none, XVal.fin (compute_utility R board color)), cch),
      fun board color _ _ _ _ _ cch =>
        ((none, XVal.fin (compute_utility R board color)), cch))
  | f + 1 =>
    (alphabeta_max_body R (alphabetaNodes R f).2,
      alphabeta_min_body R (alphabetaNodes R f).1)

/-- Function `alphabeta_max_node` of `agent.py` (the global cache passed explicitly). -/
def alphabeta_max_node [DecidableEq B] (R : Rules B) (board : B) (color : Nat)
    (alpha beta : XVal) (limit : Int) (caching ordering : Bool)
    (cch : Cache B) : Res × Cache B :=
  (alphabetaNodes R (R.mes board + 1)).1 board color alpha beta limit caching
    ordering cch

/-- Function `alphabeta_min_node` of `agent.py` (the global cache passed explicitly). -/
def alphabeta_min_node [DecidableEq B] (R : Rules B) (board : B) (color : Nat)
    (alpha beta : XVal) (limit : Int) (caching ordering : Bool)
    (cch : Cache B) : Res × Cache B :=
  (alphabetaNodes R (R.mes board + 1)).2 board color alpha beta limit caching
    ordering cch

/-- Function `select_move_alphabeta(board, color, limit, caching, ordering)`: clears
the cache and launches the root MAX node with the window `(-inf, +inf)`. -/
def select_move_alphabeta [DecidableEq B] (R : Rules B) (board : B)
    (color : Nat) (limit : Int) (caching ordering : Bool) : Option Mv :=
  ((alphabeta_max_node R board color XVal.negInf XVal.posInf limit caching
    ordering []).1).1

/-- The fail-soft alpha-beta bracketing property: a window search that
returned `v` fails low with an upper bound on the exact value `t`, fails
high with a lower bound, and is exact strictly inside the window. -/
def KMP (v t av bv : XVal) : Prop :=
  (XVal.ble v av = true → XVal.ble t v = true) ∧
  (XVal.ble bv v = true → XVal.ble v t = true) ∧
  (XVal.blt av v = true → XVal.blt v bv = true → v = t)

/-- Every entry of the cache carries a non-null move component. -/
def GoodCache (cch : Cache B) : Prop := ∀ p ∈ cch, p.2.1 ≠ none

end Search

/-- Boards of a small concrete game used to instantiate the abstract rules
adapter: `b10` has two moves leading to `b8` and `b7`; `b8` has one move that
transposes into `b7`; `b7` has two moves to the terminal boards `b3`, `b2`. -/
inductive TB where
  | b10 | b8 | b7 | b3 | b2 | bz
deriving DecidableEq, Repr

/-- A concrete rules adapter on `TB` (moves are independent of the color,
which the search never requires; the measure shrinks along legal moves). -/
def Toy : Rules TB where
  get_possible_moves b _ :=
    match b with
    | .b10 => [(0, 0), (1, 1)]
    | .b8 => [(2, 2)]
    | .b7 => [(3, 3), (4, 4)]
    | _ => []
  play_move b _ i j :=
    match b, i, j with
    | .b10, 0, 0 => .b8
    | .b10, 1, 1 => .b7
    | .b8, 2, 2 => .b7
    | .b7, 3, 3 => .b3
    | .b7, 4, 4 => .b2
    | _, _, _ => .bz
  get_score b :=
    match b with
    | .b7 => (5, 0)
    | .b2 => (1, 0)
    | _ => (0, 0)
  mes b :=
    match b with
    | .b10 => 3
    | .b8 => 2
    | .b7 => 1
    | _ => 0
  mes_lt := by
    intro b c m hm
    cases b <;> simp_all <;> rcases hm with rfl | rfl <;> simp


/-! ### Order and permutation lemma kit -/

namespace XVal

theorem ble_refl (a : XVal) : ble a a = true := by
  cases a <;> simp [ble]

theorem ble_trans {a b c : XVal} (h1 : ble a b = true) (h2 : ble b c = true) :
    ble a c = true := by
  cases a <;> cases b <;> cases c <;> simp_all [ble] <;> omega

theorem ble_antisymm {a b : XVal} (h1 : ble a b = true) (h2 : ble b a = true) :
    a = b := by
  cases a <;> cases b <;> simp_all [ble] <;> omega

theorem ble_total (a b : XVal) : ble a b = true ∨ ble b a = true := by
  cases a <;> cases b <;> simp [ble] <;> omega

theorem blt_iff_not_ble {a b : XVal} : blt a b = true ↔ ble b a = false := by
  cases a <;> cases b <;> simp [blt, ble] <;> omega

theorem ble_iff_not_blt {a b : XVal} : ble a b = true ↔ blt b a = false := by
  cases a <;> cases b <;> simp [blt, ble] <;> omega

theorem ble_of_blt {a b : XVal} (h : blt a b = true) : ble a b = true := by
  cases a <;> cases b <;> simp_all [blt, ble] <;> omega

theorem blt_irrefl (a : XVal) : blt a a = false := by
  cases a <;> simp [blt]

theorem blt_of_blt_of_ble {a b c : XVal} (h1 : blt a b = true)
    (h2 : ble b c = true) : blt a c = true := by
  cases a <;> cases b <;> cases c <;> simp_all [blt, ble] <;> omega

theorem blt_of_ble_of_blt {a b c : XVal} (h1 : ble a b = true)
    (h2 : blt b c = true) : blt a c = true := by
  cases a <;> cases b <;> cases c <;> simp_all [blt, ble] <;> omega

theorem ble_negInf (a : XVal) : ble negInf a = true := by cases a <;> simp [ble]

theorem ble_posInf (a : XVal) : ble a posInf = true := by cases a <;> simp [ble]

theorem ble_negInf_iff {a : XVal} : ble a negInf = true ↔ a = negInf := by
  cases a <;> simp [ble]

theorem posInf_ble_iff {a : XVal} : ble posInf a = true ↔ a = posInf := by
  cases a <;> simp [ble]

theorem blt_negInf_fin (z : Int) : blt negInf (fin z) = true := by simp [blt]

theorem blt_fin_posInf (z : Int) : blt (fin z) posInf = true := by simp [blt]

theorem ble_fin_fin {a b : Int} : ble (fin a) (fin b) = true ↔ a ≤ b := by
  simp [ble]

theorem blt_fin_fin {a b : Int} : blt (fin a) (fin b) = true ↔ a < b := by
  simp [blt]

theorem bmax_eq_or (a b : XVal) : bmax a b = a ∨ bmax a b = b := by
  unfold bmax; split <;> simp

theorem ble_bmax_left (a b : XVal) : ble a (bmax a b) = true := by
  unfold bmax; split
  · exact ble_refl a
  · rename_i h
    rcases ble_total a b with h' | h'
    · exact h'
    · exact absurd h' (by simp [h])

theorem ble_bmax_right (a b : XVal) : ble b (bmax a b) = true := by
  unfold bmax; split
  · assumption
  · exact ble_refl b

theorem bmax_ble {a b c : XVal} (h1 : ble a c = true) (h2 : ble b c = true) :
    ble (bmax a b) c = true := by
  unfold bmax; split <;> assumption

theorem bmax_eq_ite (a b : XVal) : bmax a b = if blt a b then b else a := by
  unfold bmax
  by_cases h : ble b a = true
  · rw [if_pos h, if_neg]
    simp [blt_iff_not_ble, h]
  · rw [if_neg h, if_pos]
    rw [blt_iff_not_ble]
    simpa using h

theorem bmin_eq_ite (a b : XVal) : bmin a b = if blt b a then b else a := by
  unfold bmin
  by_cases h : ble a b = true
  · rw [if_pos h, if_neg]
    simp [blt_iff_not_ble, h]
  · rw [if_neg h, if_pos]
    rw [blt_iff_not_ble]
    simpa using h

theorem bmin_eq_or (a b : XVal) : bmin a b = a ∨ bmin a b = b := by
  unfold bmin; split <;> simp

theorem ble_bmin_left (a b : XVal) : ble (bmin a b) a = true := by
  unfold bmin; split
  · exact ble_refl a
  · rename_i h
    rcases ble_total a b with h' | h'
    · exact absurd h' (by simp [h])
    · exact h'

theorem ble_bmin_right (a b : XVal) : ble (bmin a b) b = true := by
  unfold bmin; split
  · assumption
  · exact ble_refl b

theorem ble_bmin {a b c : XVal} (h1 : ble c a = true) (h2 : ble c b = true) :
    ble c (bmin a b) = true := by
  unfold bmin; split <;> assumption

theorem bmax_comm (a b : XVal) : bmax a b = bmax b a := by
  unfold bmax
  by_cases h1 : ble b a = true <;> by_cases h2 : ble a b = true <;>
    simp [h1, h2]
  · exact ble_antisymm h2 h1
  · rcases ble_total a b with h | h
    · exact absurd h h2
    · exact absurd h h1

theorem bmax_assoc (a b c : XVal) : bmax (bmax a b) c = bmax a (bmax b c) := by
  apply ble_antisymm
  · refine bmax_ble (bmax_ble (ble_bmax_left a (bmax b c)) ?_) ?_
    · exact ble_trans (ble_bmax_left b c) (ble_bmax_right a (bmax b c))
    · exact ble_trans (ble_bmax_right b c) (ble_bmax_right a (bmax b c))
  · refine bmax_ble ?_ (bmax_ble ?_ ?_)
    · exact ble_trans (ble_bmax_left a b) (ble_bmax_left (bmax a b) c)
    · exact ble_trans (ble_bmax_right a b) (ble_bmax_left (bmax a b) c)
    · exact ble_bmax_right (bmax a b) c

theorem bmax_left_comm (a b c : XVal) :
    bmax a (bmax b c) = bmax b (bmax a c) := by
  rw [← bmax_assoc, bmax_comm a b, bmax_assoc]

theorem bmin_comm (a b : XVal) : bmin a b = bmin b a := by
  unfold bmin
  by_cases h1 : ble a b = true <;> by_cases h2 : ble b a = true <;>
    simp [h1, h2]
  · exact ble_antisymm h1 h2
  · rcases ble_total a b with h | h
    · exact absurd h h1
    · exact absurd h h2

theorem bmin_assoc (a b c : XVal) : bmin (bmin a b) c = bmin a (bmin b c) := by
  apply ble_antisymm
  · refine ble_bmin ?_ (ble_bmin ?_ ?_)
    · exact ble_trans (ble_bmin_left (bmin a b) c) (ble_bmin_left a b)
    · exact ble_trans (ble_bmin_left (bmin a b) c) (ble_bmin_right a b)
    · exact ble_bmin_right (bmin a b) c
  · refine ble_bmin (ble_bmin (ble_bmin_left a (bmin b c)) ?_) ?_
    · exact ble_trans (ble_bmin_right a (bmin b c)) (ble_bmin_left b c)
    · exact ble_trans (ble_bmin_right a (bmin b c)) (ble_bmin_right b c)

theorem bmin_left_comm (a b c : XVal) :
    bmin a (bmin b c) = bmin b (bmin a c) := by
  rw [← bmin_assoc, bmin_comm a b, bmin_assoc]

theorem bmax_ne_posInf {a b : XVal} (ha : a ≠ posInf) (hb : b ≠ posInf) :
    bmax a b ≠ posInf := by
  rcases bmax_eq_or a b with h | h <;> rw [h] <;> assumption

theorem bmax_mono_right {a x y : XVal} (h : ble x y = true) :
    ble (bmax a x) (bmax a y) = true := by
  refine bmax_ble (ble_bmax_left a y) (ble_trans h (ble_bmax_right a y))

theorem bmin_mono_right {a x y : XVal} (h : ble x y = true) :
    ble (bmin a x) (bmin a y) = true := by
  refine ble_bmin (ble_bmin_left a x) (ble_trans (ble_bmin_right a x) h)

theorem bmax_negInf_left (b : XVal) : bmax negInf b = b := by
  cases b <;> simp [bmax, ble]

theorem bmin_posInf_left (b : XVal) : bmin posInf b = b := by
  cases b <;> simp [bmin, ble]

theorem bmax_eq_left {a b : XVal} (h : ble b a = true) : bmax a b = a := by
  unfold bmax; rw [if_pos h]

theorem bmax_eq_right {a b : XVal} (h : blt a b = true) : bmax a b = b := by
  unfold bmax
  rw [if_neg]
  simp [blt_iff_not_ble.mp h]

theorem bmin_eq_left {a b : XVal} (h : ble a b = true) : bmin a b = a := by
  unfold bmin; rw [if_pos h]

theorem bmin_eq_right {a b : XVal} (h : blt b a = true) : bmin a b = b := by
  unfold bmin
  rw [if_neg]
  simp [blt_iff_not_ble.mp h]

theorem fin_ne_negInf (z : Int) : fin z ≠ negInf := by simp

theorem fin_ne_posInf (z : Int) : fin z ≠ posInf := by simp

end XVal


theorem ble_supList_of_mem {α : Type} {f : α → XVal} {xs : List α} {x : α}
    (h : x ∈ xs) : XVal.ble (f x) (supList f xs) = true := by
  induction xs with
  | nil => cases h
  | cons y ys ih =>
    rcases List.mem_cons.mp h with rfl | h'
    · exact XVal.ble_bmax_left _ _
    · exact XVal.ble_trans (ih h') (XVal.ble_bmax_right _ _)

theorem supList_ble {α : Type} {f : α → XVal} {xs : List α} {v : XVal}
    (h : ∀ x ∈ xs, XVal.ble (f x) v = true) :
    XVal.ble (supList f xs) v = true := by
  induction xs with
  | nil => exact XVal.ble_negInf v
  | cons y ys ih =>
    exact XVal.bmax_ble (h y (List.mem_cons_self y ys))
      (ih fun x hx => h x (List.mem_cons_of_mem y hx))

theorem supList_eq_or {α : Type} (f : α → XVal) (xs : List α) :
    supList f xs = XVal.negInf ∨ ∃ x ∈ xs, supList f xs = f x := by
  induction xs with
  | nil => exact Or.inl rfl
  | cons y ys ih =>
    rcases XVal.bmax_eq_or (f y) (supList f ys) with h | h
    · exact Or.inr ⟨y, List.mem_cons_self y ys, h⟩
    · rcases ih with h' | ⟨x, hx, h'⟩
      · exact Or.inl (by rw [supList, h, h'])
      · exact Or.inr ⟨x, List.mem_cons_of_mem y hx, by rw [supList, h, h']⟩

theorem infList_ble_of_mem {α : Type} {f : α → XVal} {xs : List α} {x : α}
    (h : x ∈ xs) : XVal.ble (infList f xs) (f x) = true := by
  induction xs with
  | nil => cases h
  | cons y ys ih =>
    rcases List.mem_cons.mp h with rfl | h'
    · exact XVal.ble_bmin_left _ _
    · exact XVal.ble_trans (XVal.ble_bmin_right _ _) (ih h')

theorem ble_infList {α : Type} {f : α → XVal} {xs : List α} {v : XVal}
    (h : ∀ x ∈ xs, XVal.ble v (f x) = true) :
    XVal.ble v (infList f xs) = true := by
  induction xs with
  | nil => exact XVal.ble_posInf v
  | cons y ys ih =>
    exact XVal.ble_bmin (h y (List.mem_cons_self y ys))
      (ih fun x hx => h x (List.mem_cons_of_mem y hx))

theorem infList_eq_or {α : Type} (f : α → XVal) (xs : List α) :
    infList f xs = XVal.posInf ∨ ∃ x ∈ xs, infList f xs = f x := by
  induction xs with
  | nil => exact Or.inl rfl
  | cons y ys ih =>
    rcases XVal.bmin_eq_or (f y) (infList f ys) with h | h
    · exact Or.inr ⟨y, List.mem_cons_self y ys, h⟩
    · rcases ih with h' | ⟨x, hx, h'⟩
      · exact Or.inl (by rw [infList, h, h'])
      · exact Or.inr ⟨x, List.mem_cons_of_mem y hx, by rw [infList, h, h']⟩

theorem supList_perm {α : Type} (f : α → XVal) {xs ys : List α}
    (h : xs.Perm ys) : supList f xs = supList f ys := by
  induction h with
  | nil => rfl
  | cons x _ ih => rw [supList, supList, ih]
  | swap x y l => rw [supList, supList, supList, supList, XVal.bmax_left_comm]
  | trans _ _ ih1 ih2 => rw [ih1, ih2]

theorem infList_perm {α : Type} (f : α → XVal) {xs ys : List α}
    (h : xs.Perm ys) : infList f xs = infList f ys := by
  induction h with
  | nil => rfl
  | cons x _ ih => rw [infList, infList, ih]
  | swap x y l => rw [infList, infList, infList, infList, XVal.bmin_left_comm]
  | trans _ _ ih1 ih2 => rw [ih1, ih2]


theorem insertSorted_perm {α : Type} (bt : α → α → Bool) (x : α)
    (xs : List α) : (insertSorted bt x xs).Perm (x :: xs) := by
  induction xs with
  | nil => exact List.Perm.refl _
  | cons y ys ih =>
    rw [insertSorted]
    split
    · exact List.Perm.refl _
    · exact (List.Perm.cons y ih).trans (List.Perm.swap x y ys)

theorem pySort_foldl_perm {α : Type} (bt : α → α → Bool) :
    ∀ (xs acc : List α),
      (xs.foldl (fun acc x => insertSorted bt x acc) acc).Perm (acc ++ xs) := by
  intro xs
  induction xs with
  | nil => intro acc; simp
  | cons x xs ih =>
    intro acc
    rw [List.foldl_cons]
    refine (ih (insertSorted bt x acc)).trans ?_
    refine (List.Perm.append_right xs (insertSorted_perm bt x acc)).trans ?_
    exact List.perm_middle.symm

theorem pySort_perm {α : Type} (bt : α → α → Bool) (xs : List α) :
    (pySort bt xs).Perm xs := by
  simpa using pySort_foldl_perm bt xs []

/-! ### Search lemmas -/

section SearchLemmas

variable {B : Type} [DecidableEq B]

theorem minimaxNodes_succ (R : Rules B) (f : Nat) :
    minimaxNodes R (f + 1) =
      (minimax_max_body R (minimaxNodes R f).2,
        minimax_min_body R (minimaxNodes R f).1) := rfl

theorem alphabetaNodes_succ (R : Rules B) (f : Nat) :
    alphabetaNodes R (f + 1) =
      (alphabeta_max_body R (alphabetaNodes R f).2,
        alphabeta_min_body R (alphabetaNodes R f).1) := rfl

theorem minimax_max_node_eq (R : Rules B) (board : B) (color : Nat)
    (limit : Int) (caching : Bool) (cch : Cache B) :
    minimax_max_node R board color limit caching cch =
      minimax_max_body R (minimaxNodes R (R.mes board)).2 board color limit
        caching cch := rfl

theorem minimax_min_node_eq (R : Rules B) (board : B) (color : Nat)
    (limit : Int) (caching : Bool) (cch : Cache B) :
    minimax_min_node R board color limit caching cch =
      minimax_min_body R (minimaxNodes R (R.mes board)).1 board color limit
        caching cch := rfl

theorem alphabeta_max_node_eq (R : Rules B) (board : B) (color : Nat)
    (alpha beta : XVal) (limit : Int) (caching ordering : Bool)
    (cch : Cache B) :
    alphabeta_max_node R board color alpha beta limit caching ordering cch =
      alphabeta_max_body R (alphabetaNodes R (R.mes board)).2 board color
        alpha beta limit caching ordering cch := rfl

theorem alphabeta_min_node_eq (R : Rules B) (board : B) (color : Nat)
    (alpha beta : XVal) (limit : Int) (caching ordering : Bool)
    (cch : Cache B) :
    alphabeta_min_node R board color alpha beta limit caching ordering cch =
      alphabeta_min_body R (alphabetaNodes R (R.mes board)).1 board color
        alpha beta limit caching ordering cch := rfl

theorem order_moves_perm (R : Rules B) (board : B) (color mx : Nat) :
    (order_moves R board color mx).Perm (R.get_possible_moves board color) := by
  unfold order_moves
  split <;>
  · refine ((pySort_perm _ _).map _).trans ?_
    rw [List.map_map]
    exact (List.map_id _).symm ▸ List.Perm.refl _

theorem order_moves_eq_nil_iff (R : Rules B) (board : B) (color mx : Nat) :
    order_moves R board color mx = [] ↔
      R.get_possible_moves board color = [] := by
  have h := (order_moves_perm R board color mx).length_eq
  constructor
  · intro h'
    have h0 : (R.get_possible_moves board color).length = 0 := by
      rw [← h, h']
      rfl
    exact List.length_eq_zero.mp h0
  · intro h'
    have h0 : (order_moves R board color mx).length = 0 := by
      rw [h, h']
      rfl
    exact List.length_eq_zero.mp h0

theorem order_moves_mem (R : Rules B) (board : B) (color mx : Nat) {m : Mv}
    (h : m ∈ order_moves R board color mx) :
    m ∈ R.get_possible_moves board color :=
  (order_moves_perm R board color mx).mem_iff.mp h

/-- Every result produced by the MIN move loop has a non-null move. -/
theorem minimax_min_loop_isSome (R : Rules B) (recMax : NodeFn B) (board : B)
    (self_color color : Nat) (limit : Int) (caching : Bool) :
    ∀ (ms : List Mv) (w : Mv) (wv : XVal) (cch : Cache B), ∃ m v,
      (minimax_min_loop R recMax board self_color color limit caching
        ms w wv cch).1 = (some m, v) := by
  intro ms
  induction ms with
  | nil => intro w wv cch; exact ⟨w, wv, rfl⟩
  | cons mv rest ih =>
    intro w wv cch
    rw [minimax_min_loop]
    apply ih

/-- Every result produced by the MAX move loop has a non-null move. -/
theorem minimax_max_loop_isSome (R : Rules B) (recMin : NodeFn B) (board : B)
    (color : Nat) (limit : Int) (caching : Bool) :
    ∀ (ms : List Mv) (w : Mv) (wv : XVal) (cch : Cache B), ∃ m v,
      (minimax_max_loop R recMin board color limit caching
        ms w wv cch).1 = (some m, v) := by
  intro ms
  induction ms with
  | nil => intro w wv cch; exact ⟨w, wv, rfl⟩
  | cons mv rest ih =>
    intro w wv cch
    rw [minimax_max_loop]
    apply ih

/-- Every result produced by the alpha-beta MIN loop has a non-null move. -/
theorem alphabeta_min_loop_isSome (R : Rules B) (recMax : ABFn B) (board : B)
    (self_color color : Nat) (limit : Int) (caching ordering : Bool) :
    ∀ (ms : List Mv) (w : Mv) (wv alpha beta : XVal) (cch : Cache B), ∃ m v,
      (alphabeta_min_loop R recMax board self_color color limit caching
        ordering ms w wv alpha beta cch).1 = (some m, v) := by
  intro ms
  induction ms with
  | nil => intro w wv alpha beta cch; exact ⟨w, wv, rfl⟩
  | cons mv rest ih =>
    intro w wv alpha beta cch
    rw [alphabeta_min_loop]
    split
    · exact ⟨_, _, rfl⟩
    · apply ih

/-- Every result produced by the alpha-beta MAX loop has a non-null move. -/
theorem alphabeta_max_loop_isSome (R : Rules B) (recMin : ABFn B) (board : B)
    (color : Nat) (limit : Int) (caching ordering : Bool) :
    ∀ (ms : List Mv) (w : Mv) (wv alpha beta : XVal) (cch : Cache B), ∃ m v,
      (alphabeta_max_loop R recMin board color limit caching ordering
        ms w wv alpha beta cch).1 = (some m, v) := by
  intro ms
  induction ms with
  | nil => intro w wv alpha beta cch; exact ⟨w, wv, rfl⟩
  | cons mv rest ih =>
    intro w wv alpha beta cch
    rw [alphabeta_max_loop]
    split
    · exact ⟨_, _, rfl⟩
    · apply ih

/-- With caching off, the MIN move loop leaves the cache untouched and its
result is independent of the cache contents. -/
theorem minimax_min_loop_frame (R : Rules B) (recMax : NodeFn B) (board : B)
    (self_color color : Nat) (limit : Int)
    (H : ∀ b' c' l' cch', recMax b' c' l' false cch' =
      ((recMax b' c' l' false []).1, cch')) :
    ∀ (ms : List Mv) (w : Mv) (wv : XVal) (cch : Cache B),
      minimax_min_loop R recMax board self_color color limit false
          ms w wv cch =
        ((minimax_min_loop R recMax board self_color color limit false
          ms w wv []).1, cch) := by
  intro ms
  induction ms with
  | nil => intro w wv cch; rfl
  | cons mv rest ih =>
    intro w wv cch
    rw [minimax_min_loop, minimax_min_loop]
    simp only [Bool.false_eq_true, if_false]
    rw [H _ _ _ cch]
    have h2 : (recMax (R.play_move board self_color mv.1 mv.2) color
        (limit - 1) false ([] : Cache B)).2 = [] := by rw [H]
    rw [h2]
    apply ih

/-- With caching off, the MAX move loop leaves the cache untouched and its
result is independent of the cache contents. -/
theorem minimax_max_loop_frame (R : Rules B) (recMin : NodeFn B) (board : B)
    (color : Nat) (limit : Int)
    (H : ∀ b' c' l' cch', recMin b' c' l' false cch' =
      ((recMin b' c' l' false []).1, cch')) :
    ∀ (ms : List Mv) (w : Mv) (wv : XVal) (cch : Cache B),
      minimax_max_loop R recMin board color limit false ms w wv cch =
        ((minimax_max_loop R recMin board color limit false ms w wv []).1,
          cch) := by
  intro ms
  induction ms with
  | nil => intro w wv cch; rfl
  | cons mv rest ih =>
    intro w wv cch
    rw [minimax_max_loop, minimax_max_loop]
    simp only [Bool.false_eq_true, if_false]
    rw [H _ _ _ cch]
    have h2 : (recMin (R.play_move board color mv.1 mv.2) color
        (limit - 1) false ([] : Cache B)).2 = [] := by rw [H]
    rw [h2]
    apply ih

/-- With caching off, both minimax node functions leave the cache untouched
and their results are independent of the cache contents. -/
theorem minimaxNodes_frame (R : Rules B) : ∀ (f : Nat) (b : B)
    (c : Nat) (l : Int) (cch : Cache B),
    (minimaxNodes R f).1 b c l false cch =
        (((minimaxNodes R f).1 b c l false []).1, cch) ∧
      (minimaxNodes R f).2 b c l false cch =
        (((minimaxNodes R f).2 b c l false []).1, cch) := by
  intro f
  induction f with
  | zero => intro b c l cch; exact ⟨rfl, rfl⟩
  | succ g ih =>
    intro b c l cch
    rw [minimaxNodes_succ]
    dsimp only
    constructor
    · unfold minimax_max_body
      simp only [Bool.false_eq_true, if_false]
      repeat' split
      all_goals first
        | rfl
        | exact minimax_max_loop_frame R _ b c l
            (fun b' c' l' cch' => (ih b' c' l' cch').2) _ _ _ cch
    · unfold minimax_min_body
      simp only [Bool.false_eq_true, if_false]
      repeat' split
      all_goals first
        | rfl
        | exact minimax_min_loop_frame R _ b _ c l
            (fun b' c' l' cch' => (ih b' c' l' cch').1) _ _ _ cch

/-- With caching off, the alpha-beta MIN loop leaves the cache untouched and
its result is independent of the cache contents. -/
theorem alphabeta_min_loop_frame (R : Rules B) (recMax : ABFn B) (board : B)
    (self_color color : Nat) (limit : Int) (ordering : Bool)
    (H : ∀ b' c' a' b2' l' cch', recMax b' c' a' b2' l' false ordering cch' =
      ((recMax b' c' a' b2' l' false ordering []).1, cch')) :
    ∀ (ms : List Mv) (w : Mv) (wv alpha beta : XVal) (cch : Cache B),
      alphabeta_min_loop R recMax board self_color color limit false ordering
          ms w wv alpha beta cch =
        ((alphabeta_min_loop R recMax board self_color color limit false
          ordering ms w wv alpha beta []).1, cch) := by
  intro ms
  induction ms with
  | nil => intro w wv alpha beta cch; rfl
  | cons mv rest ih =>
    intro w wv alpha beta cch
    rw [alphabeta_min_loop, alphabeta_min_loop]
    simp only [Bool.false_eq_true, if_false]
    rw [H _ _ _ _ _ cch]
    have h2 : (recMax (R.play_move board self_color mv.1 mv.2) color alpha
        beta (limit - 1) false ordering ([] : Cache B)).2 = [] := by rw [H]
    rw [h2]
    split
    · rfl
    · apply ih

/-- With caching off, the alpha-beta MAX loop leaves the cache untouched and
its result is independent of the cache contents. -/
theorem alphabeta_max_loop_frame (R : Rules B) (recMin : ABFn B) (board : B)
    (color : Nat) (limit : Int) (ordering : Bool)
    (H : ∀ b' c' a' b2' l' cch', recMin b' c' a' b2' l' false ordering cch' =
      ((recMin b' c' a' b2' l' false ordering []).1, cch')) :
    ∀ (ms : List Mv) (w : Mv) (wv alpha beta : XVal) (cch : Cache B),
      alphabeta_max_loop R recMin board color limit false ordering
          ms w wv alpha beta cch =
        ((alphabeta_max_loop R recMin board color limit false ordering
          ms w wv alpha beta []).1, cch) := by
  intro ms
  induction ms with
  | nil => intro w wv alpha beta cch; rfl
  | cons mv rest ih =>
    intro w wv alpha beta cch
    rw [alphabeta_max_loop, alphabeta_max_loop]
    simp only [Bool.false_eq_true, if_false]
    rw [H _ _ _ _ _ cch]
    have h2 : (recMin (R.play_move board color mv.1 mv.2) color alpha
        beta (limit - 1) false ordering ([] : Cache B)).2 = [] := by rw [H]
    rw [h2]
    split
    · rfl
    · apply ih

/-- With caching off, both alpha-beta node functions leave the cache
untouched and their results are independent of the cache contents. -/
theorem alphabetaNodes_frame (R : Rules B) : ∀ (f : Nat) (b : B) (c : Nat)
    (alpha beta : XVal) (l : Int) (ord : Bool) (cch : Cache B),
    (alphabetaNodes R f).1 b c alpha beta l false ord cch =
        (((alphabetaNodes R f).1 b c alpha beta l false ord []).1, cch) ∧
      (alphabetaNodes R f).2 b c alpha beta l false ord cch =
        (((alphabetaNodes R f).2 b c alpha beta l false ord []).1, cch) := by
  intro f
  induction f with
  | zero => intro b c alpha beta l ord cch; exact ⟨rfl, rfl⟩
  | succ g ih =>
    intro b c alpha beta l ord cch
    rw [alphabetaNodes_succ]
    dsimp only
    constructor
    · unfold alphabeta_max_body
      simp only [Bool.false_eq_true, if_false]
      repeat' split
      all_goals first
        | rfl
        | exact alphabeta_max_loop_frame R _ b c l ord
            (fun b' c' a' b2' l' cch' => (ih b' c' a' b2' l' ord cch').2)
            _ _ _ alpha beta cch
    · unfold alphabeta_min_body
      simp only [Bool.false_eq_true, if_false]
      repeat' split
      all_goals first
        | rfl
        | exact alphabeta_min_loop_frame R _ b _ c l ord
            (fun b' c' a' b2' l' cch' => (ih b' c' a' b2' l' ord cch').1)
            _ _ _ alpha beta cch

/-- Exact characterization of the MAX move loop with caching off: when each
child evaluates purely to `cv m`, the result value is the running maximum and
the returned move either is the initial accumulator or attains the value. -/
theorem minimax_max_loop_char (R : Rules B) (recMin : NodeFn B) (board : B)
    (color : Nat) (limit : Int) (cv : Mv → XVal) :
    ∀ (ms : List Mv),
      (∀ m ∈ ms, ∀ cch' : Cache B,
        (recMin (R.play_move board color m.1 m.2) color (limit - 1) false
          cch').1.2 = cv m) →
      ∀ (w : Mv) (wv : XVal) (cch : Cache B), ∃ m',
        (minimax_max_loop R recMin board color limit false ms w wv cch).1 =
          (some m', XVal.bmax wv (supList cv ms)) ∧
        ((m' = w ∧ XVal.bmax wv (supList cv ms) = wv) ∨
          (m' ∈ ms ∧ XVal.bmax wv (supList cv ms) = cv m')) := by
  intro ms
  induction ms with
  | nil =>
    intro _ w wv cch
    exact ⟨w, by rw [supList, XVal.bmax_eq_left (XVal.ble_negInf wv)]; rfl,
      Or.inl ⟨rfl, XVal.bmax_eq_left (XVal.ble_negInf wv)⟩⟩
  | cons mv rest ih =>
    intro Hstep w wv cch
    rw [minimax_max_loop]
    simp only [Bool.false_eq_true, if_false]
    rw [Hstep mv (List.mem_cons_self mv rest)]
    by_cases hb : XVal.blt wv (cv mv) = true
    · rw [if_pos hb, if_pos hb]
      obtain ⟨m', heq, hd⟩ := ih
        (fun m hm => Hstep m (List.mem_cons_of_mem mv hm)) mv (cv mv) _
      have hv : XVal.bmax wv (supList cv (mv :: rest)) =
          XVal.bmax (cv mv) (supList cv rest) := by
        rw [supList, ← XVal.bmax_assoc, XVal.bmax_eq_right hb]
      refine ⟨m', by rw [hv]; exact heq, ?_⟩
      rcases hd with ⟨rfl, h2⟩ | ⟨h1, h2⟩
      · exact Or.inr ⟨List.mem_cons_self m' rest, by rw [hv, h2]⟩
      · exact Or.inr ⟨List.mem_cons_of_mem mv h1, by rw [hv, h2]⟩
    · rw [if_neg hb, if_neg hb]
      obtain ⟨m', heq, hd⟩ := ih
        (fun m hm => Hstep m (List.mem_cons_of_mem mv hm)) w wv _
      have hble : XVal.ble (cv mv) wv = true := by
        rw [XVal.ble_iff_not_blt]
        simpa using hb
      have hv : XVal.bmax wv (supList cv (mv :: rest)) =
          XVal.bmax wv (supList cv rest) := by
        rw [supList, ← XVal.bmax_assoc, XVal.bmax_eq_left hble]
      refine ⟨m', by rw [hv]; exact heq, ?_⟩
      rcases hd with ⟨h1, h2⟩ | ⟨h1, h2⟩
      · exact Or.inl ⟨h1, by rw [hv, h2]⟩
      · exact Or.inr ⟨List.mem_cons_of_mem mv h1, by rw [hv, h2]⟩

/-- Exact characterization of the MIN move loop with caching off, dual to
`minimax_max_loop_char`. -/
theorem minimax_min_loop_char (R : Rules B) (recMax : NodeFn B) (board : B)
    (self_color color : Nat) (limit : Int) (cv : Mv → XVal) :
    ∀ (ms : List Mv),
      (∀ m ∈ ms, ∀ cch' : Cache B,
        (recMax (R.play_move board self_color m.1 m.2) color (limit - 1)
          false cch').1.2 = cv m) →
      ∀ (w : Mv) (wv : XVal) (cch : Cache B), ∃ m',
        (minimax_min_loop R recMax board self_color color limit false
            ms w wv cch).1 = (some m', XVal.bmin wv (infList cv ms)) ∧
        ((m' = w ∧ XVal.bmin wv (infList cv ms) = wv) ∨
          (m' ∈ ms ∧ XVal.bmin wv (infList cv ms) = cv m')) := by
  intro ms
  induction ms with
  | nil =>
    intro _ w wv cch
    exact ⟨w, by rw [infList, XVal.bmin_eq_left (XVal.ble_posInf wv)]; rfl,
      Or.inl ⟨rfl, XVal.bmin_eq_left (XVal.ble_posInf wv)⟩⟩
  | cons mv rest ih =>
    intro Hstep w wv cch
    rw [minimax_min_loop]
    simp only [Bool.false_eq_true, if_false]
    rw [Hstep mv (List.mem_cons_self mv rest)]
    by_cases hb : XVal.blt (cv mv) wv = true
    · rw [if_pos hb, if_pos hb]
      obtain ⟨m', heq, hd⟩ := ih
        (fun m hm => Hstep m (List.mem_cons_of_mem mv hm)) mv (cv mv) _
      have hv : XVal.bmin wv (infList cv (mv :: rest)) =
          XVal.bmin (cv mv) (infList cv rest) := by
        rw [infList, ← XVal.bmin_assoc, XVal.bmin_eq_right hb]
      refine ⟨m', by rw [hv]; exact heq, ?_⟩
      rcases hd with ⟨rfl, h2⟩ | ⟨h1, h2⟩
      · exact Or.inr ⟨List.mem_cons_self m' rest, by rw [hv, h2]⟩
      · exact Or.inr ⟨List.mem_cons_of_mem mv h1, by rw [hv, h2]⟩
    · rw [if_neg hb, if_neg hb]
      obtain ⟨m', heq, hd⟩ := ih
        (fun m hm => Hstep m (List.mem_cons_of_mem mv hm)) w wv _
      have hble : XVal.ble wv (cv mv) = true := by
        rw [XVal.ble_iff_not_blt]
        simpa using hb
      have hv : XVal.bmin wv (infList cv (mv :: rest)) =
          XVal.bmin wv (infList cv rest) := by
        rw [infList, ← XVal.bmin_assoc, XVal.bmin_eq_left hble]
      refine ⟨m', by rw [hv]; exact heq, ?_⟩
      rcases hd with ⟨h1, h2⟩ | ⟨h1, h2⟩
      · exact Or.inl ⟨h1, by rw [hv, h2]⟩
      · exact Or.inr ⟨List.mem_cons_of_mem mv h1, by rw [hv, h2]⟩

/-- With caching off and every child evaluating to a finite value, both
minimax node functions return a finite value, with a legal move attached
exactly when the node is neither terminal nor depth-exhausted. -/
theorem minimaxNodes_shape (R : Rules B) : ∀ (f : Nat) (b : B) (c : Nat)
    (l : Int), R.mes b < f →
    (((R.get_possible_moves b c = [] ∨ l = 0) →
        ((minimaxNodes R f).1 b c l false []).1 =
          (none, XVal.fin (compute_utility R b c))) ∧
      (¬(R.get_possible_moves b c = [] ∨ l = 0) →
        ∃ m z, ((minimaxNodes R f).1 b c l false []).1 =
            (some m, XVal.fin z) ∧ m ∈ R.get_possible_moves b c)) ∧
    (((R.get_possible_moves b (if c = 2 then 1 else 2) = [] ∨ l = 0) →
        ((minimaxNodes R f).2 b c l false []).1 =
          (none, XVal.fin (compute_utility R b c))) ∧
      (¬(R.get_possible_moves b (if c = 2 then 1 else 2) = [] ∨ l = 0) →
        ∃ m z, ((minimaxNodes R f).2 b c l false []).1 =
            (some m, XVal.fin z) ∧
          m ∈ R.get_possible_moves b (if c = 2 then 1 else 2))) := by
  intro f
  induction f with
  | zero => intro b c l hf; exact absurd hf (Nat.not_lt_zero _)
  | succ g ih =>
    intro b c l hf
    have hmes : R.mes b ≤ g := Nat.lt_succ_iff.mp hf
    rw [minimaxNodes_succ]
    dsimp only
    constructor
    · unfold minimax_max_body
      simp only [Bool.false_eq_true, if_false]
      constructor
      · intro hg
        rw [if_pos hg]
      · intro hg
        rw [if_neg hg]
        set cv : Mv → XVal := fun m =>
          ((minimaxNodes R g).2 (R.play_move b c m.1 m.2) c (l - 1) false
            []).1.2 with hcv
        have Hstep : ∀ m ∈ R.get_possible_moves b c, ∀ cch' : Cache B,
            ((minimaxNodes R g).2 (R.play_move b c m.1 m.2) c (l - 1) false
              cch').1.2 = cv m := by
          intro m _ cch'
          rw [(minimaxNodes_frame R g _ c (l - 1) cch').2]
        obtain ⟨m', heq, hd⟩ := minimax_max_loop_char R _ b c l cv
          (R.get_possible_moves b c) Hstep (0, 0) XVal.negInf []
        have hfin : ∀ m ∈ R.get_possible_moves b c, ∃ z,
            cv m = XVal.fin z := by
          intro m hm
          have hlt : R.mes (R.play_move b c m.1 m.2) < g :=
            Nat.lt_of_lt_of_le (R.mes_lt b c m hm) hmes
          rcases Classical.em (R.get_possible_moves
              (R.play_move b c m.1 m.2) (if c = 2 then 1 else 2) = [] ∨
              l - 1 = 0) with hg' | hg'
          · refine ⟨compute_utility R (R.play_move b c m.1 m.2) c, ?_⟩
            show ((minimaxNodes R g).2 (R.play_move b c m.1 m.2) c (l - 1)
              false []).1.2 = _
            rw [(ih _ c (l - 1) hlt).2.1 hg']
          · obtain ⟨m2, z2, hz, _⟩ := (ih _ c (l - 1) hlt).2.2 hg'
            refine ⟨z2, ?_⟩
            show ((minimaxNodes R g).2 (R.play_move b c m.1 m.2) c (l - 1)
              false []).1.2 = _
            rw [hz]
        have hne : R.get_possible_moves b c ≠ [] := fun hnil => hg (Or.inl hnil)
        obtain ⟨m0, hm0⟩ := List.exists_mem_of_ne_nil _ hne
        obtain ⟨z0, hz0⟩ := hfin m0 hm0
        have hsne : supList cv (R.get_possible_moves b c) ≠ XVal.negInf := by
          intro hscontra
          have := ble_supList_of_mem (f := cv) hm0
          rw [hscontra, hz0] at this
          simp [XVal.ble] at this
        rcases supList_eq_or cv (R.get_possible_moves b c) with hs | ⟨m1, hm1, hs⟩
        · exact absurd hs hsne
        · obtain ⟨z1, hz1⟩ := hfin m1 hm1
          rw [XVal.bmax_negInf_left] at heq hd
          rcases hd with ⟨_, h2⟩ | ⟨h1, h2⟩
          · rw [h2] at hs
            exact absurd (hz1.symm.trans hs.symm) (XVal.fin_ne_negInf z1)
          · obtain ⟨z', hz'⟩ := hfin m' h1
            exact ⟨m', z', by rw [heq, h2, hz'], h1⟩
    · unfold minimax_min_body
      simp only [Bool.false_eq_true, if_false]
      constructor
      · intro hg
        rw [if_pos hg]
      · intro hg
        rw [if_neg hg]
        set sc := if c = 2 then 1 else 2 with hsc
        set cv : Mv → XVal := fun m =>
          ((minimaxNodes R g).1 (R.play_move b sc m.1 m.2) c (l - 1) false
            []).1.2 with hcv
        have Hstep : ∀ m ∈ R.get_possible_moves b sc, ∀ cch' : Cache B,
            ((minimaxNodes R g).1 (R.play_move b sc m.1 m.2) c (l - 1) false
              cch').1.2 = cv m := by
          intro m _ cch'
          rw [(minimaxNodes_frame R g _ c (l - 1) cch').1]
        obtain ⟨m', heq, hd⟩ := minimax_min_loop_char R _ b sc c l cv
          (R.get_possible_moves b sc) Hstep (0, 0) XVal.posInf []
        have hfin : ∀ m ∈ R.get_possible_moves b sc, ∃ z,
            cv m = XVal.fin z := by
          intro m hm
          have hlt : R.mes (R.play_move b sc m.1 m.2) < g :=
            Nat.lt_of_lt_of_le (R.mes_lt b sc m hm) hmes
          rcases Classical.em (R.get_possible_moves
              (R.play_move b sc m.1 m.2) c = [] ∨ l - 1 = 0) with hg' | hg'
          · refine ⟨compute_utility R (R.play_move b sc m.1 m.2) c, ?_⟩
            show ((minimaxNodes R g).1 (R.play_move b sc m.1 m.2) c (l - 1)
              false []).1.2 = _
            rw [(ih _ c (l - 1) hlt).1.1 hg']
          · obtain ⟨m2, z2, hz, _⟩ := (ih _ c (l - 1) hlt).1.2 hg'
            refine ⟨z2, ?_⟩
            show ((minimaxNodes R g).1 (R.play_move b sc m.1 m.2) c (l - 1)
              false []).1.2 = _
            rw [hz]
        have hne : R.get_possible_moves b sc ≠ [] := fun hnil => hg (Or.inl hnil)
        obtain ⟨m0, hm0⟩ := List.exists_mem_of_ne_nil _ hne
        obtain ⟨z0, hz0⟩ := hfin m0 hm0
        have hsne : infList cv (R.get_possible_moves b sc) ≠ XVal.posInf := by
          intro hscontra
          have := infList_ble_of_mem (f := cv) hm0
          rw [hscontra, hz0] at this
          simp [XVal.ble] at this
        rcases infList_eq_or cv (R.get_possible_moves b sc) with hs | ⟨m1, hm1, hs⟩
        · exact absurd hs hsne
        · obtain ⟨z1, hz1⟩ := hfin m1 hm1
          rw [XVal.bmin_posInf_left] at heq hd
          rcases hd with ⟨_, h2⟩ | ⟨h1, h2⟩
          · rw [h2] at hs
            exact absurd (hz1.symm.trans hs.symm) (XVal.fin_ne_posInf z1)
          · obtain ⟨z', hz'⟩ := hfin m' h1
            exact ⟨m', z', by rw [heq, h2, hz'], h1⟩

theorem ite_cond_true {α : Type} (a b : α) :
    (if (true : Bool) = true then a else b) = a := rfl

theorem ite_cond_false {α : Type} (a b : α) :
    (if (false : Bool) = true then a else b) = b := rfl

/-- Shape of the alpha-beta MAX loop with caching off: the result move is the
initial accumulator or one of the listed moves, the value is the initial
accumulator value or finite, and when starting from `-inf` on a non-empty
list the move is listed and the value finite. -/
theorem alphabeta_max_loop_shape (R : Rules B) (recMin : ABFn B) (board : B)
    (color : Nat) (limit : Int) (ordering : Bool) :
    ∀ (ms : List Mv),
      (∀ m ∈ ms, ∀ (α' β' : XVal) (cch' : Cache B), ∃ z,
        (recMin (R.play_move board color m.1 m.2) color α' β' (limit - 1)
          false ordering cch').1.2 = XVal.fin z) →
      ∀ (w : Mv) (wv alpha beta : XVal) (cch : Cache B), ∃ m' v',
        (alphabeta_max_loop R recMin board color limit false ordering
          ms w wv alpha beta cch).1 = (some m', v') ∧
        (m' = w ∨ m' ∈ ms) ∧ (v' = wv ∨ ∃ z, v' = XVal.fin z) ∧
        (wv = XVal.negInf → ms ≠ [] → m' ∈ ms ∧ ∃ z, v' = XVal.fin z) := by
  intro ms
  induction ms with
  | nil =>
    intro _ w wv alpha beta cch
    exact ⟨w, wv, rfl, Or.inl rfl, Or.inl rfl,
      fun _ hne => absurd rfl hne⟩
  | cons mv rest ih =>
    intro Hstep w wv alpha beta cch
    rw [alphabeta_max_loop]
    simp only [Bool.false_eq_true, if_false]
    obtain ⟨z, hz⟩ := Hstep mv (List.mem_cons_self mv rest) alpha beta cch
    rw [hz]
    by_cases hb : XVal.blt wv (XVal.fin z) = true
    · rw [if_pos hb, if_pos hb]
      split
      · exact ⟨mv, XVal.fin z, rfl, Or.inr (List.mem_cons_self mv rest),
          Or.inr ⟨z, rfl⟩,
          fun _ _ => ⟨List.mem_cons_self mv rest, z, rfl⟩⟩
      · obtain ⟨m', v', heq, hmv, hv, _⟩ := ih
          (fun m hm => Hstep m (List.mem_cons_of_mem mv hm))
          mv (XVal.fin z) (XVal.bmax alpha (XVal.fin z)) beta _
        have hmem : m' ∈ mv :: rest := by
          rcases hmv with rfl | h
          · exact List.mem_cons_self m' rest
          · exact List.mem_cons_of_mem mv h
        have hfin : ∃ z', v' = XVal.fin z' := by
          rcases hv with rfl | h
          · exact ⟨z, rfl⟩
          · exact h
        exact ⟨m', v', heq, Or.inr hmem, Or.inr hfin,
          fun _ _ => ⟨hmem, hfin⟩⟩
    · rw [if_neg hb, if_neg hb]
      split
      · refine ⟨w, wv, rfl, Or.inl rfl, Or.inl rfl, fun hwv _ => ?_⟩
        rw [hwv] at hb
        exact absurd (XVal.blt_negInf_fin z) hb
      · obtain ⟨m', v', heq, hmv, hv, _⟩ := ih
          (fun m hm => Hstep m (List.mem_cons_of_mem mv hm))
          w wv (XVal.bmax alpha (XVal.fin z)) beta _
        refine ⟨m', v', heq, ?_, hv, fun hwv _ => ?_⟩
        · rcases hmv with rfl | h
          · exact Or.inl rfl
          · exact Or.inr (List.mem_cons_of_mem mv h)
        · rw [hwv] at hb
          exact absurd (XVal.blt_negInf_fin z) hb

/-- Shape of the alpha-beta MIN loop with caching off, dual to
`alphabeta_max_loop_shape`. -/
theorem alphabeta_min_loop_shape (R : Rules B) (recMax : ABFn B) (board : B)
    (self_color color : Nat) (limit : Int) (ordering : Bool) :
    ∀ (ms : List Mv),
      (∀ m ∈ ms, ∀ (α' β' : XVal) (cch' : Cache B), ∃ z,
        (recMax (R.play_move board self_color m.1 m.2) color α' β'
          (limit - 1) false ordering cch').1.2 = XVal.fin z) →
      ∀ (w : Mv) (wv alpha beta : XVal) (cch : Cache B), ∃ m' v',
        (alphabeta_min_loop R recMax board self_color color limit false
          ordering ms w wv alpha beta cch).1 = (some m', v') ∧
        (m' = w ∨ m' ∈ ms) ∧ (v' = wv ∨ ∃ z, v' = XVal.fin z) ∧
        (wv = XVal.posInf → ms ≠ [] → m' ∈ ms ∧ ∃ z, v' = XVal.fin z) := by
  intro ms
  induction ms with
  | nil =>
    intro _ w wv alpha beta cch
    exact ⟨w, wv, rfl, Or.inl rfl, Or.inl rfl,
      fun _ hne => absurd rfl hne⟩
  | cons mv rest ih =>
    intro Hstep w wv alpha beta cch
    rw [alphabeta_min_loop]
    simp only [Bool.false_eq_true, if_false]
    obtain ⟨z, hz⟩ := Hstep mv (List.mem_cons_self mv rest) alpha beta cch
    rw [hz]
    by_cases hb : XVal.blt (XVal.fin z) wv = true
    · rw [if_pos hb, if_pos hb]
      split
      · exact ⟨mv, XVal.fin z, rfl, Or.inr (List.mem_cons_self mv rest),
          Or.inr ⟨z, rfl⟩,
          fun _ _ => ⟨List.mem_cons_self mv rest, z, rfl⟩⟩
      · obtain ⟨m', v', heq, hmv, hv, _⟩ := ih
          (fun m hm => Hstep m (List.mem_cons_of_mem mv hm))
          mv (XVal.fin z) alpha (XVal.bmin beta (XVal.fin z)) _
        have hmem : m' ∈ mv :: rest := by
          rcases hmv with rfl | h
          · exact List.mem_cons_self m' rest
          · exact List.mem_cons_of_mem mv h
        have hfin : ∃ z', v' = XVal.fin z' := by
          rcases hv with rfl | h
          · exact ⟨z, rfl⟩
          · exact h
        exact ⟨m', v', heq, Or.inr hmem, Or.inr hfin,
          fun _ _ => ⟨hmem, hfin⟩⟩
    · rw [if_neg hb, if_neg hb]
      split
      · refine ⟨w, wv, rfl, Or.inl rfl, Or.inl rfl, fun hwv _ => ?_⟩
        rw [hwv] at hb
        exact absurd (XVal.blt_fin_posInf z) hb
      · obtain ⟨m', v', heq, hmv, hv, _⟩ := ih
          (fun m hm => Hstep m (List.mem_cons_of_mem mv hm))
          w wv alpha (XVal.bmin beta (XVal.fin z)) _
        refine ⟨m', v', heq, ?_, hv, fun hwv _ => ?_⟩
        · rcases hmv with rfl | h
          · exact Or.inl rfl
          · exact Or.inr (List.mem_cons_of_mem mv h)
        · rw [hwv] at hb
          exact absurd (XVal.blt_fin_posInf z) hb

/-- With caching off, both alpha-beta node functions return a finite value
with a legal move attached exactly when the node is neither terminal nor
depth-exhausted, for every window and ordering flag. -/
theorem alphabetaNodes_shape (R : Rules B) : ∀ (f : Nat) (b : B) (c : Nat)
    (alpha beta : XVal) (l : Int) (ord : Bool), R.mes b < f →
    (((R.get_possible_moves b c = [] ∨ l = 0) →
        ((alphabetaNodes R f).1 b c alpha beta l false ord []).1 =
          (none, XVal.fin (compute_utility R b c))) ∧
      (¬(R.get_possible_moves b c = [] ∨ l = 0) →
        ∃ m z, ((alphabetaNodes R f).1 b c alpha beta l false ord []).1 =
            (some m, XVal.fin z) ∧ m ∈ R.get_possible_moves b c)) ∧
    (((R.get_possible_moves b (if c = 2 then 1 else 2) = [] ∨ l = 0) →
        ((alphabetaNodes R f).2 b c alpha beta l false ord []).1 =
          (none, XVal.fin (compute_utility R b c))) ∧
      (¬(R.get_possible_moves b (if c = 2 then 1 else 2) = [] ∨ l = 0) →
        ∃ m z, ((alphabetaNodes R f).2 b c alpha beta l false ord []).1 =
            (some m, XVal.fin z) ∧
          m ∈ R.get_possible_moves b (if c = 2 then 1 else 2))) := by
  intro f
  induction f with
  | zero => intro b c alpha beta l ord hf; exact absurd hf (Nat.not_lt_zero _)
  | succ g ih =>
    intro b c alpha beta l ord hf
    have hmes : R.mes b ≤ g := Nat.lt_succ_iff.mp hf
    have Hstep : ∀ (sc : Nat), ∀ m ∈ R.get_possible_moves b sc,
        ∀ (α' β' : XVal) (cch' : Cache B), ∃ z,
        ((alphabetaNodes R g).2 (R.play_move b sc m.1 m.2) c α' β' (l - 1)
          false ord cch').1.2 = XVal.fin z := by
      intro sc m hm α' β' cch'
      have hlt : R.mes (R.play_move b sc m.1 m.2) < g :=
        Nat.lt_of_lt_of_le (R.mes_lt b sc m hm) hmes
      rw [(alphabetaNodes_frame R g _ c α' β' (l - 1) ord cch').2]
      rcases Classical.em (R.get_possible_moves (R.play_move b sc m.1 m.2)
          (if c = 2 then 1 else 2) = [] ∨ l - 1 = 0) with hg' | hg'
      · exact ⟨_, by rw [(ih _ c α' β' (l - 1) ord hlt).2.1 hg']⟩
      · obtain ⟨m2, z2, hz, _⟩ := (ih _ c α' β' (l - 1) ord hlt).2.2 hg'
        exact ⟨z2, by rw [hz]⟩
    have HstepMax : ∀ (sc : Nat), ∀ m ∈ R.get_possible_moves b sc,
        ∀ (α' β' : XVal) (cch' : Cache B), ∃ z,
        ((alphabetaNodes R g).1 (R.play_move b sc m.1 m.2) c α' β' (l - 1)
          false ord cch').1.2 = XVal.fin z := by
      intro sc m hm α' β' cch'
      have hlt : R.mes (R.play_move b sc m.1 m.2) < g :=
        Nat.lt_of_lt_of_le (R.mes_lt b sc m hm) hmes
      rw [(alphabetaNodes_frame R g _ c α' β' (l - 1) ord cch').1]
      rcases Classical.em (R.get_possible_moves (R.play_move b sc m.1 m.2) c
          = [] ∨ l - 1 = 0) with hg' | hg'
      · exact ⟨_, by rw [(ih _ c α' β' (l - 1) ord hlt).1.1 hg']⟩
      · obtain ⟨m2, z2, hz, _⟩ := (ih _ c α' β' (l - 1) ord hlt).1.2 hg'
        exact ⟨z2, by rw [hz]⟩
    rw [alphabetaNodes_succ]
    dsimp only
    constructor
    · unfold alphabeta_max_body
      simp only [Bool.false_eq_true, if_false]
      cases ord with
      | false =>
        simp only [ite_cond_false, if_false]
        constructor
        · intro hg
          rw [if_pos hg]
        · intro hg
          rw [if_neg hg]
          have hne : R.get_possible_moves b c ≠ [] :=
            fun hnil => hg (Or.inl hnil)
          obtain ⟨m', v', heq, _, _, hsp⟩ := alphabeta_max_loop_shape R _ b c
            l false (R.get_possible_moves b c) (Hstep c) (0, 0) XVal.negInf
            alpha beta []
          obtain ⟨hmem, z', hz'⟩ := hsp rfl hne
          exact ⟨m', z', by rw [heq, hz'], hmem⟩
      | true =>
        simp only [ite_cond_true, if_true]
        have hords : ∀ m ∈ order_moves R b c c, ∀ (α' β' : XVal)
            (cch' : Cache B), ∃ z,
            ((alphabetaNodes R g).2 (R.play_move b c m.1 m.2) c α' β'
              (l - 1) false true cch').1.2 = XVal.fin z :=
          fun m hm => Hstep c m (order_moves_mem R b c c hm)
        constructor
        · intro hg
          rw [if_pos]
          rcases hg with hg | hg
          · exact Or.inl ((order_moves_eq_nil_iff R b c c).mpr hg)
          · exact Or.inr hg
        · intro hg
          have hg2 : ¬(order_moves R b c c = [] ∨ l = 0) := by
            intro h
            rcases h with h | h
            · exact hg (Or.inl ((order_moves_eq_nil_iff R b c c).mp h))
            · exact hg (Or.inr h)
          rw [if_neg hg2]
          have hne : order_moves R b c c ≠ [] :=
            fun hnil => hg2 (Or.inl hnil)
          obtain ⟨m', v', heq, _, _, hsp⟩ := alphabeta_max_loop_shape R _ b c
            l true (order_moves R b c c) hords (0, 0) XVal.negInf
            alpha beta []
          obtain ⟨hmem, z', hz'⟩ := hsp rfl hne
          exact ⟨m', z', by rw [heq, hz'], order_moves_mem R b c c hmem⟩
    · unfold alphabeta_min_body
      simp only [Bool.false_eq_true, if_false]
      cases ord with
      | false =>
        simp only [ite_cond_false, if_false]
        constructor
        · intro hg
          rw [if_pos hg]
        · intro hg
          rw [if_neg hg]
          have hne : R.get_possible_moves b (if c = 2 then 1 else 2) ≠ [] :=
            fun hnil => hg (Or.inl hnil)
          obtain ⟨m', v', heq, _, _, hsp⟩ := alphabeta_min_loop_shape R _ b
            (if c = 2 then 1 else 2) c l false
            (R.get_possible_moves b (if c = 2 then 1 else 2))
            (HstepMax (if c = 2 then 1 else 2)) (0, 0) XVal.posInf
            alpha beta []
          obtain ⟨hmem, z', hz'⟩ := hsp rfl hne
          exact ⟨m', z', by rw [heq, hz'], hmem⟩
      | true =>
        simp only [ite_cond_true, if_true]
        have hords : ∀ m ∈ order_moves R b (if c = 2 then 1 else 2) c,
            ∀ (α' β' : XVal) (cch' : Cache B), ∃ z,
            ((alphabetaNodes R g).1
              (R.play_move b (if c = 2 then 1 else 2) m.1 m.2) c α' β'
              (l - 1) false true cch').1.2 = XVal.fin z :=
          fun m hm => HstepMax (if c = 2 then 1 else 2) m
            (order_moves_mem R b (if c = 2 then 1 else 2) c hm)
        constructor
        · intro hg
          rw [if_pos]
          rcases hg with hg | hg
          · exact Or.inl
              ((order_moves_eq_nil_iff R b (if c = 2 then 1 else 2) c).mpr hg)
          · exact Or.inr hg
        · intro hg
          have hg2 : ¬(order_moves R b (if c = 2 then 1 else 2) c = []
              ∨ l = 0) := by
            intro h
            rcases h with h | h
            · exact hg (Or.inl
                ((order_moves_eq_nil_iff R b (if c = 2 then 1 else 2) c).mp h))
            · exact hg (Or.inr h)
          rw [if_neg hg2]
          have hne : order_moves R b (if c = 2 then 1 else 2) c ≠ [] :=
            fun hnil => hg2 (Or.inl hnil)
          obtain ⟨m', v', heq, _, _, hsp⟩ := alphabeta_min_loop_shape R _ b
            (if c = 2 then 1 else 2) c l true
            (order_moves R b (if c = 2 then 1 else 2) c) hords (0, 0)
            XVal.posInf alpha beta []
          obtain ⟨hmem, z', hz'⟩ := hsp rfl hne
          exact ⟨m', z',
            by rw [heq, hz'],
            order_moves_mem R b (if c = 2 then 1 else 2) c hmem⟩

theorem KMP_refl (v av bv : XVal) : KMP v v av bv :=
  ⟨fun _ => XVal.ble_refl v, fun _ => XVal.ble_refl v, fun _ _ => rfl⟩

/-- Fail-soft alpha-beta correctness for the MAX loop: if every child call
satisfies the bracketing property against its exact value `t m`, the loop
result satisfies it against the running maximum of the exact values. -/
theorem alphabeta_max_loop_km (R : Rules B) (recMin : ABFn B) (board : B)
    (color : Nat) (limit : Int) (ordering : Bool) (beta : XVal)
    (t : Mv → XVal) :
    ∀ (ms : List Mv),
      (∀ m ∈ ms, ∀ (α' : XVal) (cch' : Cache B), XVal.blt α' beta = true →
        KMP ((recMin (R.play_move board color m.1 m.2) color α' beta
          (limit - 1) false ordering cch').1.2) (t m) α' beta) →
      ∀ (w : Mv) (wv alpha : XVal) (cch : Cache B),
        XVal.blt alpha beta = true →
        KMP ((alphabeta_max_loop R recMin board color limit false ordering
            ms w wv alpha beta cch).1.2)
          (XVal.bmax wv (supList t ms)) alpha beta := by
  intro ms
  induction ms with
  | nil =>
    intro _ w wv alpha cch _
    rw [supList, XVal.bmax_eq_left (XVal.ble_negInf wv)]
    exact KMP_refl wv alpha beta
  | cons mv rest ih =>
    intro Ht w wv alpha cch hab
    rw [alphabeta_max_loop]
    simp only [Bool.false_eq_true, if_false]
    set out := recMin (R.play_move board color mv.1 mv.2) color alpha beta
      (limit - 1) false ordering cch with hout
    obtain ⟨hA, hB, hC⟩ := Ht mv (List.mem_cons_self mv rest) alpha cch hab
    set r := out.1.2 with hr
    set S := supList t rest with hS
    rw [show XVal.bmax wv (supList t (mv :: rest)) =
      XVal.bmax wv (XVal.bmax (t mv) S) from by rw [supList]]
    rw [show (if XVal.blt wv r = true then r else wv) = XVal.bmax wv r from
      (XVal.bmax_eq_ite wv r).symm]
    by_cases hbr : XVal.ble beta (XVal.bmax alpha r) = true
    · rw [if_pos hbr]
      have hbetar : XVal.ble beta r = true := by
        rcases XVal.bmax_eq_or alpha r with h | h
        · rw [h] at hbr
          exact absurd hbr (by simp [XVal.blt_iff_not_ble.mp hab])
        · rw [h] at hbr
          exact hbr
      have hrt : XVal.ble r (t mv) = true := hB hbetar
      have hbV : XVal.ble beta (XVal.bmax wv r) = true :=
        XVal.ble_trans hbetar (XVal.ble_bmax_right wv r)
      refine ⟨fun h => ?_, fun _ => ?_, fun _ h2 => ?_⟩
      · exact absurd (XVal.ble_trans hbV h)
          (by simp [XVal.blt_iff_not_ble.mp hab])
      · exact XVal.ble_trans (XVal.bmax_mono_right hrt)
          (XVal.bmax_mono_right (XVal.ble_bmax_left (t mv) S))
      · exact absurd (XVal.blt_of_ble_of_blt hbV h2)
          (by simp [XVal.blt_irrefl beta])
    · rw [if_neg hbr]
      have hab' : XVal.blt (XVal.bmax alpha r) beta = true := by
        rw [XVal.blt_iff_not_ble]
        simpa using hbr
      have hrb : XVal.blt r beta = true :=
        XVal.blt_of_ble_of_blt (XVal.ble_bmax_right alpha r) hab'
      obtain ⟨ihA, ihB, ihC⟩ := ih
        (fun m hm => Ht m (List.mem_cons_of_mem mv hm))
        (if XVal.blt wv r = true then mv else w) (XVal.bmax wv r)
        (XVal.bmax alpha r) out.2 hab'
      rw [show XVal.bmax (XVal.bmax wv r) (supList t rest) =
        XVal.bmax wv (XVal.bmax r S) from XVal.bmax_assoc wv r S]
        at ihA ihB ihC
      set V := (alphabeta_max_loop R recMin board color limit false ordering
        rest (if XVal.blt wv r = true then mv else w) (XVal.bmax wv r)
        (XVal.bmax alpha r) beta out.2).1.2 with hVdef
      by_cases hra : XVal.ble r alpha = true
      · have htmr : XVal.ble (t mv) r = true := hA hra
        rw [XVal.bmax_eq_left hra] at ihA ihC
        have hMM' : XVal.ble (XVal.bmax wv (XVal.bmax (t mv) S))
            (XVal.bmax wv (XVal.bmax r S)) = true := by
          refine XVal.bmax_mono_right
            (XVal.bmax_ble ?_ (XVal.ble_bmax_right r S))
          exact XVal.ble_trans htmr (XVal.ble_bmax_left r S)
        refine ⟨fun h => XVal.ble_trans hMM' (ihA h), fun h => ?_,
          fun h1 h2 => ?_⟩
        · have hVM' := ihB h
          rcases XVal.bmax_eq_or wv (XVal.bmax r S) with hc | hc
          · rw [hc] at hVM'
            exact XVal.ble_trans hVM' (XVal.ble_bmax_left wv _)
          · rcases XVal.bmax_eq_or r S with hd | hd
            · rw [hc, hd] at hVM'
              exact absurd (XVal.ble_trans h hVM')
                (by simp [XVal.blt_iff_not_ble.mp hrb])
            · rw [hc, hd] at hVM'
              exact XVal.ble_trans hVM' (XVal.ble_trans
                (XVal.ble_bmax_right (t mv) S) (XVal.ble_bmax_right wv _))
        · have hVeq := ihC h1 h2
          have hMV : XVal.ble (XVal.bmax wv (XVal.bmax (t mv) S)) V = true := by
            rw [hVeq]
            exact hMM'
          have hVM : XVal.ble V (XVal.bmax wv (XVal.bmax (t mv) S)) = true := by
            rcases XVal.bmax_eq_or wv (XVal.bmax r S) with hc | hc
            · rw [hVeq, hc]
              exact XVal.ble_bmax_left wv _
            · rcases XVal.bmax_eq_or r S with hd | hd
              · exfalso
                rw [hVeq, hc, hd] at h1
                exact absurd (XVal.blt_of_blt_of_ble h1 hra)
                  (by simp [XVal.blt_irrefl alpha])
              · rw [hVeq, hc, hd]
                exact XVal.ble_trans (XVal.ble_bmax_right (t mv) S)
                  (XVal.ble_bmax_right wv _)
          exact XVal.ble_antisymm hVM hMV
      · have har : XVal.blt alpha r = true := by
          rw [XVal.blt_iff_not_ble]
          simpa using hra
        have hrt : r = t mv := hC har hrb
        rw [XVal.bmax_eq_right har] at ihA ihC
        rw [← hrt]
        refine ⟨fun h => ihA (XVal.ble_of_blt (XVal.blt_of_ble_of_blt h har)),
          fun h => ihB h, fun h1 h2 => ?_⟩
        by_cases hrV : XVal.blt r V = true
        · exact ihC hrV h2
        · have hVr : XVal.ble V r = true := by
            rw [XVal.ble_iff_not_blt]
            simpa using hrV
          have hrM' : XVal.ble r (XVal.bmax wv (XVal.bmax r S)) = true :=
            XVal.ble_trans (XVal.ble_bmax_left r S)
              (XVal.ble_bmax_right wv _)
          exact XVal.ble_antisymm (XVal.ble_trans hVr hrM') (ihA hVr)

/-- Fail-soft alpha-beta correctness for the MIN loop, dual to
`alphabeta_max_loop_km`. -/
theorem alphabeta_min_loop_km (R : Rules B) (recMax : ABFn B) (board : B)
    (self_color color : Nat) (limit : Int) (ordering : Bool) (alpha : XVal)
    (t : Mv → XVal) :
    ∀ (ms : List Mv),
      (∀ m ∈ ms, ∀ (β' : XVal) (cch' : Cache B), XVal.blt alpha β' = true →
        KMP ((recMax (R.play_move board self_color m.1 m.2) color alpha β'
          (limit - 1) false ordering cch').1.2) (t m) alpha β') →
      ∀ (w : Mv) (wv beta : XVal) (cch : Cache B),
        XVal.blt alpha beta = true →
        KMP ((alphabeta_min_loop R recMax board self_color color limit false
            ordering ms w wv alpha beta cch).1.2)
          (XVal.bmin wv (infList t ms)) alpha beta := by
  intro ms
  induction ms with
  | nil =>
    intro _ w wv beta cch _
    rw [infList, XVal.bmin_eq_left (XVal.ble_posInf wv)]
    exact KMP_refl wv alpha beta
  | cons mv rest ih =>
    intro Ht w wv beta cch hab
    rw [alphabeta_min_loop]
    simp only [Bool.false_eq_true, if_false]
    set out := recMax (R.play_move board self_color mv.1 mv.2) color alpha
      beta (limit - 1) false ordering cch with hout
    obtain ⟨hA, hB, hC⟩ := Ht mv (List.mem_cons_self mv rest) beta cch hab
    set r := out.1.2 with hr
    set S := infList t rest with hS
    rw [show XVal.bmin wv (infList t (mv :: rest)) =
      XVal.bmin wv (XVal.bmin (t mv) S) from by rw [infList]]
    rw [show (if XVal.blt r wv = true then r else wv) = XVal.bmin wv r from
      (XVal.bmin_eq_ite wv r).symm]
    by_cases hbr : XVal.ble (XVal.bmin beta r) alpha = true
    · rw [if_pos hbr]
      have hralpha : XVal.ble r alpha = true := by
        rcases XVal.bmin_eq_or beta r with h | h
        · rw [h] at hbr
          exact absurd hbr (by simp [XVal.blt_iff_not_ble.mp hab])
        · rw [h] at hbr
          exact hbr
      have htm : XVal.ble (t mv) r = true := hA hralpha
      have hVa : XVal.ble (XVal.bmin wv r) alpha = true :=
        XVal.ble_trans (XVal.ble_bmin_right wv r) hralpha
      refine ⟨fun _ => ?_, fun h => ?_, fun h1 _ => ?_⟩
      · refine XVal.ble_bmin (XVal.ble_bmin_left wv _) ?_
        exact XVal.ble_trans (XVal.ble_trans (XVal.ble_bmin_right wv _)
          (XVal.ble_bmin_left (t mv) S)) htm
      · exact absurd (XVal.ble_trans h hVa)
          (by simp [XVal.blt_iff_not_ble.mp hab])
      · exact absurd (XVal.blt_of_blt_of_ble h1 hVa)
          (by simp [XVal.blt_irrefl alpha])
    · rw [if_neg hbr]
      have hab' : XVal.blt alpha (XVal.bmin beta r) = true := by
        rw [XVal.blt_iff_not_ble]
        simpa using hbr
      have har : XVal.blt alpha r = true :=
        XVal.blt_of_blt_of_ble hab' (XVal.ble_bmin_right beta r)
      obtain ⟨ihA, ihB, ihC⟩ := ih
        (fun m hm => Ht m (List.mem_cons_of_mem mv hm))
        (if XVal.blt r wv = true then mv else w) (XVal.bmin wv r)
        (XVal.bmin beta r) out.2 hab'
      rw [show XVal.bmin (XVal.bmin wv r) (infList t rest) =
        XVal.bmin wv (XVal.bmin r S) from XVal.bmin_assoc wv r S]
        at ihA ihB ihC
      set V := (alphabeta_min_loop R recMax board self_color color limit
        false ordering rest (if XVal.blt r wv = true then mv else w)
        (XVal.bmin wv r) alpha (XVal.bmin beta r) out.2).1.2 with hVdef
      by_cases hbetar : XVal.ble beta r = true
      · have hrtm : XVal.ble r (t mv) = true := hB hbetar
        rw [XVal.bmin_eq_left hbetar] at ihB ihC
        have hM'M : XVal.ble (XVal.bmin wv (XVal.bmin r S))
            (XVal.bmin wv (XVal.bmin (t mv) S)) = true := by
          refine XVal.bmin_mono_right
            (XVal.ble_bmin ?_ (XVal.ble_bmin_right r S))
          exact XVal.ble_trans (XVal.ble_bmin_left r S) hrtm
        refine ⟨fun h => ?_, fun h => XVal.ble_trans (ihB h) hM'M,
          fun h1 h2 => ?_⟩
        · have hM'V := ihA h
          rcases XVal.bmin_eq_or wv (XVal.bmin r S) with hc | hc
          · rw [hc] at hM'V
            exact XVal.ble_trans (XVal.ble_bmin_left wv _) hM'V
          · rcases XVal.bmin_eq_or r S with hd | hd
            · rw [hc, hd] at hM'V
              exact absurd (XVal.ble_trans hbetar (XVal.ble_trans hM'V h))
                (by simp [XVal.blt_iff_not_ble.mp hab])
            · rw [hc, hd] at hM'V
              exact XVal.ble_trans (XVal.ble_trans (XVal.ble_bmin_right wv _)
                (XVal.ble_bmin_right (t mv) S)) hM'V
        · have hVeq := ihC h1 h2
          have hVM : XVal.ble V (XVal.bmin wv (XVal.bmin (t mv) S)) = true := by
            rw [hVeq]
            exact hM'M
          have hMV : XVal.ble (XVal.bmin wv (XVal.bmin (t mv) S)) V = true := by
            rcases XVal.bmin_eq_or wv (XVal.bmin r S) with hc | hc
            · rw [hVeq, hc]
              exact XVal.ble_bmin_left wv _
            · rcases XVal.bmin_eq_or r S with hd | hd
              · exfalso
                rw [hVeq, hc, hd] at h2
                exact absurd (XVal.blt_of_ble_of_blt hbetar h2)
                  (by simp [XVal.blt_irrefl beta])
              · rw [hVeq, hc, hd]
                exact XVal.ble_trans (XVal.ble_bmin_right wv _)
                  (XVal.ble_bmin_right (t mv) S)
          exact XVal.ble_antisymm hVM hMV
      · have hrb : XVal.blt r beta = true := by
          rw [XVal.blt_iff_not_ble]
          simpa using hbetar
        have hrt : r = t mv := hC har hrb
        rw [XVal.bmin_eq_right hrb] at ihB ihC
        rw [← hrt]
        refine ⟨fun h => ihA h,
          fun h => ihB (XVal.ble_of_blt (XVal.blt_of_blt_of_ble hrb h)),
          fun h1 h2 => ?_⟩
        by_cases hVr : XVal.blt V r = true
        · exact ihC h1 hVr
        · have hrV : XVal.ble r V = true := by
            rw [XVal.ble_iff_not_blt]
            simpa using hVr
          have hM'r : XVal.ble (XVal.bmin wv (XVal.bmin r S)) r = true :=
            XVal.ble_trans (XVal.ble_bmin_right wv _)
              (XVal.ble_bmin_left r S)
          exact XVal.ble_antisymm (ihB hrV) (XVal.ble_trans hM'r hrV)

/-- Value of a non-terminal minimax MAX node: the maximum over the children
of the MIN-node values one level down. -/
theorem minimax_max_val (R : Rules B) (g : Nat) (b : B) (c : Nat) (l : Int)
    (hg : ¬(R.get_possible_moves b c = [] ∨ l = 0)) :
    ((minimaxNodes R (g + 1)).1 b c l false []).1.2 =
      supList (fun m => ((minimaxNodes R g).2 (R.play_move b c m.1 m.2) c
        (l - 1) false []).1.2) (R.get_possible_moves b c) := by
  rw [minimaxNodes_succ]
  dsimp only
  unfold minimax_max_body
  simp only [Bool.false_eq_true, if_false]
  rw [if_neg hg]
  obtain ⟨m', heq, _⟩ := minimax_max_loop_char R (minimaxNodes R g).2 b c l
    (fun m => ((minimaxNodes R g).2 (R.play_move b c m.1 m.2) c
      (l - 1) false []).1.2)
    (R.get_possible_moves b c)
    (fun m _ cch' => by rw [(minimaxNodes_frame R g _ c (l - 1) cch').2])
    (0, 0) XVal.negInf []
  rw [heq]
  dsimp only
  rw [XVal.bmax_negInf_left]

/-- Value of a non-terminal minimax MIN node: the minimum over the opponent
moves of the MAX-node values one level down. -/
theorem minimax_min_val (R : Rules B) (g : Nat) (b : B) (c : Nat) (l : Int)
    (hg : ¬(R.get_possible_moves b (if c = 2 then 1 else 2) = [] ∨ l = 0)) :
    ((minimaxNodes R (g + 1)).2 b c l false []).1.2 =
      infList (fun m => ((minimaxNodes R g).1
        (R.play_move b (if c = 2 then 1 else 2) m.1 m.2) c
        (l - 1) false []).1.2)
        (R.get_possible_moves b (if c = 2 then 1 else 2)) := by
  rw [minimaxNodes_succ]
  dsimp only
  unfold minimax_min_body
  simp only [Bool.false_eq_true, if_false]
  rw [if_neg hg]
  obtain ⟨m', heq, _⟩ := minimax_min_loop_char R (minimaxNodes R g).1 b
    (if c = 2 then 1 else 2) c l
    (fun m => ((minimaxNodes R g).1
      (R.play_move b (if c = 2 then 1 else 2) m.1 m.2) c
      (l - 1) false []).1.2)
    (R.get_possible_moves b (if c = 2 then 1 else 2))
    (fun m _ cch' => by rw [(minimaxNodes_frame R g _ c (l - 1) cch').1])
    (0, 0) XVal.posInf []
  rw [heq]
  dsimp only
  rw [XVal.bmin_posInf_left]

/-- Knuth-Moore correctness of alpha-beta against minimax: with caching off,
for every window, every ordering flag and adequate fuel, each alpha-beta node
value brackets the corresponding exact minimax node value. -/
theorem alphabeta_km (R : Rules B) : ∀ (f : Nat) (b : B) (c : Nat) (l : Int)
    (alpha beta : XVal) (ord : Bool), R.mes b < f →
    XVal.blt alpha beta = true →
    KMP (((alphabetaNodes R f).1 b c alpha beta l false ord []).1.2)
        (((minimaxNodes R f).1 b c l false []).1.2) alpha beta ∧
    KMP (((alphabetaNodes R f).2 b c alpha beta l false ord []).1.2)
        (((minimaxNodes R f).2 b c l false []).1.2) alpha beta := by
  intro f
  induction f with
  | zero =>
    intro b c l alpha beta ord hf _
    exact absurd hf (Nat.not_lt_zero _)
  | succ g ih =>
    intro b c l alpha beta ord hf hab
    have hmes : R.mes b ≤ g := Nat.lt_succ_iff.mp hf
    constructor
    · by_cases hg : (R.get_possible_moves b c = [] ∨ l = 0)
      · have hv1 : ((alphabetaNodes R (g + 1)).1 b c alpha beta l false ord
            []).1.2 = XVal.fin (compute_utility R b c) := by
          rw [(alphabetaNodes_shape R (g + 1) b c alpha beta l ord hf).1.1 hg]
        have hv2 : ((minimaxNodes R (g + 1)).1 b c l false []).1.2 =
            XVal.fin (compute_utility R b c) := by
          rw [(minimaxNodes_shape R (g + 1) b c l hf).1.1 hg]
        rw [hv1, hv2]
        exact KMP_refl _ alpha beta
      · rw [minimax_max_val R g b c l hg]
        have Ht : ∀ m ∈ R.get_possible_moves b c, ∀ (α' : XVal)
            (cch' : Cache B), XVal.blt α' beta = true →
            KMP (((alphabetaNodes R g).2 (R.play_move b c m.1 m.2) c α' beta
              (l - 1) false ord cch').1.2)
              (((minimaxNodes R g).2 (R.play_move b c m.1 m.2) c
                (l - 1) false []).1.2) α' beta := by
          intro m hm α' cch' hab'
          have hlt : R.mes (R.play_move b c m.1 m.2) < g :=
            Nat.lt_of_lt_of_le (R.mes_lt b c m hm) hmes
          rw [(alphabetaNodes_frame R g _ c α' beta (l - 1) ord cch').2]
          exact (ih _ c (l - 1) α' beta ord hlt hab').2
        rw [alphabetaNodes_succ]
        dsimp only
        unfold alphabeta_max_body
        simp only [Bool.false_eq_true, if_false]
        cases ord with
        | false =>
          simp only [ite_cond_false, if_false]
          rw [if_neg hg]
          have hkm := alphabeta_max_loop_km R (alphabetaNodes R g).2 b c l
            false beta _ (R.get_possible_moves b c) Ht (0, 0) XVal.negInf
            alpha [] hab
          rw [XVal.bmax_negInf_left] at hkm
          exact hkm
        | true =>
          simp only [ite_cond_true, if_true]
          have hg2 : ¬(order_moves R b c c = [] ∨ l = 0) := by
            intro h
            rcases h with h | h
            · exact hg (Or.inl ((order_moves_eq_nil_iff R b c c).mp h))
            · exact hg (Or.inr h)
          rw [if_neg hg2]
          have hkm := alphabeta_max_loop_km R (alphabetaNodes R g).2 b c l
            true beta _ (order_moves R b c c)
            (fun m hm => Ht m (order_moves_mem R b c c hm)) (0, 0)
            XVal.negInf alpha [] hab
          rw [XVal.bmax_negInf_left] at hkm
          rw [supList_perm _ (order_moves_perm R b c c)] at hkm
          exact hkm
    · by_cases hg : (R.get_possible_moves b (if c = 2 then 1 else 2) = [] ∨
          l = 0)
      · have hv1 : ((alphabetaNodes R (g + 1)).2 b c alpha beta l false ord
            []).1.2 = XVal.fin (compute_utility R b c) := by
          rw [(alphabetaNodes_shape R (g + 1) b c alpha beta l ord hf).2.1 hg]
        have hv2 : ((minimaxNodes R (g + 1)).2 b c l false []).1.2 =
            XVal.fin (compute_utility R b c) := by
          rw [(minimaxNodes_shape R (g + 1) b c l hf).2.1 hg]
        rw [hv1, hv2]
        exact KMP_refl _ alpha beta
      · rw [minimax_min_val R g b c l hg]
        have Ht : ∀ m ∈ R.get_possible_moves b (if c = 2 then 1 else 2),
            ∀ (β' : XVal) (cch' : Cache B), XVal.blt alpha β' = true →
            KMP (((alphabetaNodes R g).1
              (R.play_move b (if c = 2 then 1 else 2) m.1 m.2) c alpha β'
              (l - 1) false ord cch').1.2)
              (((minimaxNodes R g).1
                (R.play_move b (if c = 2 then 1 else 2) m.1 m.2) c
                (l - 1) false []).1.2) alpha β' := by
          intro m hm β' cch' hab'
          have hlt : R.mes (R.play_move b (if c = 2 then 1 else 2) m.1 m.2)
              < g :=
            Nat.lt_of_lt_of_le (R.mes_lt b (if c = 2 then 1 else 2) m hm) hmes
          rw [(alphabetaNodes_frame R g _ c alpha β' (l - 1) ord cch').1]
          exact (ih _ c (l - 1) alpha β' ord hlt hab').1
        rw [alphabetaNodes_succ]
        dsimp only
        unfold alphabeta_min_body
        simp only [Bool.false_eq_true, if_false]
        cases ord with
        | false =>
          simp only [ite_cond_false, if_false]
          rw [if_neg hg]
          have hkm := alphabeta_min_loop_km R (alphabetaNodes R g).1 b
            (if c = 2 then 1 else 2) c l false alpha _
            (R.get_possible_moves b (if c = 2 then 1 else 2)) Ht (0, 0)
            XVal.posInf beta [] hab
          rw [XVal.bmin_posInf_left] at hkm
          exact hkm
        | true =>
          simp only [ite_cond_true, if_true]
          have hg2 : ¬(order_moves R b (if c = 2 then 1 else 2) c = [] ∨
              l = 0) := by
            intro h
            rcases h with h | h
            · exact hg (Or.inl
                ((order_moves_eq_nil_iff R b (if c = 2 then 1 else 2) c).mp h))
            · exact hg (Or.inr h)
          rw [if_neg hg2]
          have hkm := alphabeta_min_loop_km R (alphabetaNodes R g).1 b
            (if c = 2 then 1 else 2) c l true alpha _
            (order_moves R b (if c = 2 then 1 else 2) c)
            (fun m hm => Ht m
              (order_moves_mem R b (if c = 2 then 1 else 2) c hm)) (0, 0)
            XVal.posInf beta [] hab
          rw [XVal.bmin_posInf_left] at hkm
          rw [infList_perm _
            (order_moves_perm R b (if c = 2 then 1 else 2) c)] at hkm
          exact hkm

/-- The MAX move loop only inspects the limit through the recursive calls,
so two loops whose recursive calls agree produce identical results. -/
theorem minimax_max_loop_congr (R : Rules B) (recMin : NodeFn B) (board : B)
    (color : Nat) (l1 l2 : Int) (caching : Bool)
    (H : ∀ (b' : B) (c' : Nat) (cch' : Cache B),
      recMin b' c' (l1 - 1) caching cch' = recMin b' c' (l2 - 1) caching cch') :
    ∀ (ms : List Mv) (w : Mv) (wv : XVal) (cch : Cache B),
      minimax_max_loop R recMin board color l1 caching ms w wv cch =
        minimax_max_loop R recMin board color l2 caching ms w wv cch := by
  intro ms
  induction ms with
  | nil => intro w wv cch; rfl
  | cons mv rest ih =>
    intro w wv cch
    rw [minimax_max_loop, minimax_max_loop, H]
    apply ih

/-- The MIN move loop analogue of `minimax_max_loop_congr`. -/
theorem minimax_min_loop_congr (R : Rules B) (recMax : NodeFn B) (board : B)
    (self_color color : Nat) (l1 l2 : Int) (caching : Bool)
    (H : ∀ (b' : B) (c' : Nat) (cch' : Cache B),
      recMax b' c' (l1 - 1) caching cch' = recMax b' c' (l2 - 1) caching cch') :
    ∀ (ms : List Mv) (w : Mv) (wv : XVal) (cch : Cache B),
      minimax_min_loop R recMax board self_color color l1 caching
          ms w wv cch =
        minimax_min_loop R recMax board self_color color l2 caching
          ms w wv cch := by
  intro ms
  induction ms with
  | nil => intro w wv cch; rfl
  | cons mv rest ih =>
    intro w wv cch
    rw [minimax_min_loop, minimax_min_loop, H]
    apply ih

/-- Once the remaining depth is negative it can never reach the `limit == 0`
guard again, so all negative limits give identical minimax searches. -/
theorem minimaxNodes_neg_limit (R : Rules B) : ∀ (f : Nat) (b : B) (c : Nat)
    (l1 l2 : Int) (caching : Bool) (cch : Cache B), l1 < 0 → l2 < 0 →
    (minimaxNodes R f).1 b c l1 caching cch =
        (minimaxNodes R f).1 b c l2 caching cch ∧
      (minimaxNodes R f).2 b c l1 caching cch =
        (minimaxNodes R f).2 b c l2 caching cch := by
  intro f
  induction f with
  | zero => intro b c l1 l2 caching cch _ _; exact ⟨rfl, rfl⟩
  | succ g ih =>
    intro b c l1 l2 caching cch h1 h2
    have h1' : l1 - 1 < 0 := by omega
    have h2' : l2 - 1 < 0 := by omega
    have h1z : ¬(l1 = 0) := by omega
    have h2z : ¬(l2 = 0) := by omega
    rw [minimaxNodes_succ]
    dsimp only
    constructor
    · unfold minimax_max_body
      cases hsc : (if caching = true then lookupC cch b else none) with
      | some r => rfl
      | none =>
        dsimp only
        by_cases hp : R.get_possible_moves b c = []
        · rw [if_pos (Or.inl hp), if_pos (Or.inl hp)]
        · rw [if_neg (fun h => Or.elim h hp h1z), if_neg (fun h => Or.elim h hp h2z)]
          exact minimax_max_loop_congr R _ b c l1 l2 caching
            (fun b' c' cch' => (ih b' c' (l1 - 1) (l2 - 1) caching cch'
              h1' h2').2) _ _ _ cch
    · unfold minimax_min_body
      cases hsc : (if caching = true then lookupC cch b else none) with
      | some r => rfl
      | none =>
        dsimp only
        by_cases hp : R.get_possible_moves b (if c = 2 then 1 else 2) = []
        · rw [if_pos (Or.inl hp), if_pos (Or.inl hp)]
        · rw [if_neg (fun h => Or.elim h hp h1z), if_neg (fun h => Or.elim h hp h2z)]
          exact minimax_min_loop_congr R _ b _ c l1 l2 caching
            (fun b' c' cch' => (ih b' c' (l1 - 1) (l2 - 1) caching cch'
              h1' h2').1) _ _ _ cch

/-- The alpha-beta MAX loop analogue of `minimax_max_loop_congr`. -/
theorem alphabeta_max_loop_congr (R : Rules B) (recMin : ABFn B) (board : B)
    (color : Nat) (l1 l2 : Int) (caching ordering : Bool)
    (H : ∀ (b' : B) (c' : Nat) (a' b2' : XVal) (cch' : Cache B),
      recMin b' c' a' b2' (l1 - 1) caching ordering cch' =
        recMin b' c' a' b2' (l2 - 1) caching ordering cch') :
    ∀ (ms : List Mv) (w : Mv) (wv alpha beta : XVal) (cch : Cache B),
      alphabeta_max_loop R recMin board color l1 caching ordering
          ms w wv alpha beta cch =
        alphabeta_max_loop R recMin board color l2 caching ordering
          ms w wv alpha beta cch := by
  intro ms
  induction ms with
  | nil => intro w wv alpha beta cch; rfl
  | cons mv rest ih =>
    intro w wv alpha beta cch
    rw [alphabeta_max_loop, alphabeta_max_loop, H]
    split
    · rfl
    · apply ih

/-- The alpha-beta MIN loop analogue of `minimax_min_loop_congr`. -/
theorem alphabeta_min_loop_congr (R : Rules B) (recMax : ABFn B) (board : B)
    (self_color color : Nat) (l1 l2 : Int) (caching ordering : Bool)
    (H : ∀ (b' : B) (c' : Nat) (a' b2' : XVal) (cch' : Cache B),
      recMax b' c' a' b2' (l1 - 1) caching ordering cch' =
        recMax b' c' a' b2' (l2 - 1) caching ordering cch') :
    ∀ (ms : List Mv) (w : Mv) (wv alpha beta : XVal) (cch : Cache B),
      alphabeta_min_loop R recMax board self_color color l1 caching ordering
          ms w wv alpha beta cch =
        alphabeta_min_loop R recMax board self_color color l2 caching
          ordering ms w wv alpha beta cch := by
  intro ms
  induction ms with
  | nil => intro w wv alpha beta cch; rfl
  | cons mv rest ih =>
    intro w wv alpha beta cch
    rw [alphabeta_min_loop, alphabeta_min_loop, H]
    split
    · rfl
    · apply ih

/-- All negative limits give identical alpha-beta searches. -/
theorem alphabetaNodes_neg_limit (R : Rules B) : ∀ (f : Nat) (b : B)
    (c : Nat) (alpha beta : XVal) (l1 l2 : Int) (caching ordering : Bool)
    (cch : Cache B), l1 < 0 → l2 < 0 →
    (alphabetaNodes R f).1 b c alpha beta l1 caching ordering cch =
        (alphabetaNodes R f).1 b c alpha beta l2 caching ordering cch ∧
      (alphabetaNodes R f).2 b c alpha beta l1 caching ordering cch =
        (alphabetaNodes R f).2 b c alpha beta l2 caching ordering cch := by
  intro f
  induction f with
  | zero => intro b c alpha beta l1 l2 caching ordering cch _ _
            exact ⟨rfl, rfl⟩
  | succ g ih =>
    intro b c alpha beta l1 l2 caching ordering cch h1 h2
    have h1' : l1 - 1 < 0 := by omega
    have h2' : l2 - 1 < 0 := by omega
    have h1z : ¬(l1 = 0) := by omega
    have h2z : ¬(l2 = 0) := by omega
    rw [alphabetaNodes_succ]
    dsimp only
    constructor
    · unfold alphabeta_max_body
      cases hsc : (if caching = true then lookupC cch b else none) with
      | some r => rfl
      | none =>
        dsimp only
        by_cases hp : (if ordering = true then order_moves R b c c
            else R.get_possible_moves b c) = []
        · rw [if_pos (Or.inl hp), if_pos (Or.inl hp)]
        · rw [if_neg (fun h => Or.elim h hp h1z), if_neg (fun h => Or.elim h hp h2z)]
          exact alphabeta_max_loop_congr R _ b c l1 l2 caching ordering
            (fun b' c' a' b2' cch' => (ih b' c' a' b2' (l1 - 1) (l2 - 1)
              caching ordering cch' h1' h2').2) _ _ _ alpha beta cch
    · unfold alphabeta_min_body
      cases hsc : (if caching = true then lookupC cch b else none) with
      | some r => rfl
      | none =>
        dsimp only
        by_cases hp : (if ordering = true then
            order_moves R b (if c = 2 then 1 else 2) c
            else R.get_possible_moves b (if c = 2 then 1 else 2)) = []
        · rw [if_pos (Or.inl hp), if_pos (Or.inl hp)]
        · rw [if_neg (fun h => Or.elim h hp h1z), if_neg (fun h => Or.elim h hp h2z)]
          exact alphabeta_min_loop_congr R _ b _ c l1 l2 caching ordering
            (fun b' c' a' b2' cch' => (ih b' c' a' b2' (l1 - 1) (l2 - 1)
              caching ordering cch' h1' h2').1) _ _ _ alpha beta cch

theorem GoodCache_nil : GoodCache ([] : Cache B) :=
  fun p hp => absurd hp (List.not_mem_nil p)

theorem GoodCache_insert {cch : Cache B} (h : GoodCache cch) (b : B)
    (m : Mv) (v : XVal) : GoodCache (insertC cch b (some m, v)) := by
  intro p hp
  rcases List.mem_cons.mp hp with rfl | hp'
  · simp
  · exact h p hp'

/-- Every cache write of the MAX move loop stores a pair with a non-null
(edge) move, so the loop preserves `GoodCache`. -/
theorem minimax_max_loop_good (R : Rules B) (recMin : NodeFn B) (board : B)
    (color : Nat) (limit : Int) (caching : Bool)
    (Hrec : ∀ (b' : B) (c' : Nat) (l' : Int) (cch' : Cache B),
      GoodCache cch' → GoodCache (recMin b' c' l' caching cch').2) :
    ∀ (ms : List Mv) (w : Mv) (wv : XVal) (cch : Cache B), GoodCache cch →
      GoodCache (minimax_max_loop R recMin board color limit caching
        ms w wv cch).2 := by
  intro ms
  induction ms with
  | nil => intro w wv cch h; exact h
  | cons mv rest ih =>
    intro w wv cch h
    rw [minimax_max_loop]
    apply ih
    have := Hrec (R.play_move board color mv.1 mv.2) color (limit - 1) cch h
    cases caching
    · simpa using this
    · simpa using GoodCache_insert this _ mv _

/-- The MIN move loop analogue of `minimax_max_loop_good`. -/
theorem minimax_min_loop_good (R : Rules B) (recMax : NodeFn B) (board : B)
    (self_color color : Nat) (limit : Int) (caching : Bool)
    (Hrec : ∀ (b' : B) (c' : Nat) (l' : Int) (cch' : Cache B),
      GoodCache cch' → GoodCache (recMax b' c' l' caching cch').2) :
    ∀ (ms : List Mv) (w : Mv) (wv : XVal) (cch : Cache B), GoodCache cch →
      GoodCache (minimax_min_loop R recMax board self_color color limit
        caching ms w wv cch).2 := by
  intro ms
  induction ms with
  | nil => intro w wv cch h; exact h
  | cons mv rest ih =>
    intro w wv cch h
    rw [minimax_min_loop]
    apply ih
    have := Hrec (R.play_move board self_color mv.1 mv.2) color (limit - 1)
      cch h
    cases caching
    · simpa using this
    · simpa using GoodCache_insert this _ mv _

/-- Both minimax node functions preserve `GoodCache`. -/
theorem minimaxNodes_good (R : Rules B) : ∀ (f : Nat) (b : B) (c : Nat)
    (l : Int) (caching : Bool) (cch : Cache B), GoodCache cch →
    GoodCache ((minimaxNodes R f).1 b c l caching cch).2 ∧
      GoodCache ((minimaxNodes R f).2 b c l caching cch).2 := by
  intro f
  induction f with
  | zero => intro b c l caching cch h; exact ⟨h, h⟩
  | succ g ih =>
    intro b c l caching cch h
    rw [minimaxNodes_succ]
    dsimp only
    constructor
    · unfold minimax_max_body
      cases hsc : (if caching = true then lookupC cch b else none) with
      | some r => exact h
      | none =>
        dsimp only
        split
        · exact h
        · exact minimax_max_loop_good R _ b c l caching
            (fun b' c' l' cch' h' => (ih b' c' l' caching cch' h').2)
            _ _ _ cch h
    · unfold minimax_min_body
      cases hsc : (if caching = true then lookupC cch b else none) with
      | some r => exact h
      | none =>
        dsimp only
        repeat' split
        all_goals first
          | exact h
          | exact minimax_min_loop_good R _ b _ c l caching
              (fun b' c' l' cch' h' => (ih b' c' l' caching cch' h').1)
              _ _ _ cch h

/-- The alpha-beta MAX loop preserves `GoodCache`. -/
theorem alphabeta_max_loop_good (R : Rules B) (recMin : ABFn B) (board : B)
    (color : Nat) (limit : Int) (caching ordering : Bool)
    (Hrec : ∀ (b' : B) (c' : Nat) (a' b2' : XVal) (l' : Int)
      (cch' : Cache B), GoodCache cch' →
      GoodCache (recMin b' c' a' b2' l' caching ordering cch').2) :
    ∀ (ms : List Mv) (w : Mv) (wv alpha beta : XVal) (cch : Cache B),
      GoodCache cch →
      GoodCache (alphabeta_max_loop R recMin board color limit caching
        ordering ms w wv alpha beta cch).2 := by
  intro ms
  induction ms with
  | nil => intro w wv alpha beta cch h; exact h
  | cons mv rest ih =>
    intro w wv alpha beta cch h
    rw [alphabeta_max_loop]
    have hg : GoodCache (if caching = true then
        insertC (recMin (R.play_move board color mv.1 mv.2) color alpha beta
          (limit - 1) caching ordering cch).2
          (R.play_move board color mv.1 mv.2)
          (some mv, (recMin (R.play_move board color mv.1 mv.2) color alpha
            beta (limit - 1) caching ordering cch).1.2)
      else (recMin (R.play_move board color mv.1 mv.2) color alpha beta
        (limit - 1) caching ordering cch).2) := by
      have := Hrec (R.play_move board color mv.1 mv.2) color alpha beta
        (limit - 1) cch h
      cases caching
      · simpa using this
      · simpa using GoodCache_insert this _ mv _
    split
    · exact hg
    · exact ih _ _ _ _ _ hg

/-- The alpha-beta MIN loop preserves `GoodCache`. -/
theorem alphabeta_min_loop_good (R : Rules B) (recMax : ABFn B) (board : B)
    (self_color color : Nat) (limit : Int) (caching ordering : Bool)
    (Hrec : ∀ (b' : B) (c' : Nat) (a' b2' : XVal) (l' : Int)
      (cch' : Cache B), GoodCache cch' →
      GoodCache (recMax b' c' a' b2' l' caching ordering cch').2) :
    ∀ (ms : List Mv) (w : Mv) (wv alpha beta : XVal) (cch : Cache B),
      GoodCache cch →
      GoodCache (alphabeta_min_loop R recMax board self_color color limit
        caching ordering ms w wv alpha beta cch).2 := by
  intro ms
  induction ms with
  | nil => intro w wv alpha beta cch h; exact h
  | cons mv rest ih =>
    intro w wv alpha beta cch h
    rw [alphabeta_min_loop]
    have hg : GoodCache (if caching = true then
        insertC (recMax (R.play_move board self_color mv.1 mv.2) color alpha
          beta (limit - 1) caching ordering cch).2
          (R.play_move board self_color mv.1 mv.2)
          (some mv, (recMax (R.play_move board self_color mv.1 mv.2) color
            alpha beta (limit - 1) caching ordering cch).1.2)
      else (recMax (R.play_move board self_color mv.1 mv.2) color alpha beta
        (limit - 1) caching ordering cch).2) := by
      have := Hrec (R.play_move board self_color mv.1 mv.2) color alpha beta
        (limit - 1) cch h
      cases caching
      · simpa using this
      · simpa using GoodCache_insert this _ mv _
    split
    · exact hg
    · exact ih _ _ _ _ _ hg

/-- Both alpha-beta node functions preserve `GoodCache`. -/
theorem alphabetaNodes_good (R : Rules B) : ∀ (f : Nat) (b : B) (c : Nat)
    (alpha beta : XVal) (l : Int) (caching ordering : Bool) (cch : Cache B),
    GoodCache cch →
    GoodCache ((alphabetaNodes R f).1 b c alpha beta l caching ordering
        cch).2 ∧
      GoodCache ((alphabetaNodes R f).2 b c alpha beta l caching ordering
        cch).2 := by
  intro f
  induction f with
  | zero => intro b c alpha beta l caching ordering cch h; exact ⟨h, h⟩
  | succ g ih =>
    intro b c alpha beta l caching ordering cch h
    rw [alphabetaNodes_succ]
    dsimp only
    constructor
    · unfold alphabeta_max_body
      cases hsc : (if caching = true then lookupC cch b else none) with
      | some r => exact h
      | none =>
        dsimp only
        repeat' split
        all_goals first
          | exact h
          | exact alphabeta_max_loop_good R _ b c l caching ordering
              (fun b' c' a' b2' l' cch' h' =>
                (ih b' c' a' b2' l' caching ordering cch' h').2)
              _ _ _ alpha beta cch h
    · unfold alphabeta_min_body
      cases hsc : (if caching = true then lookupC cch b else none) with
      | some r => exact h
      | none =>
        dsimp only
        repeat' split
        all_goals first
          | exact h
          | exact alphabeta_min_loop_good R _ b _ c l caching ordering
              (fun b' c' a' b2' l' cch' h' =>
                (ih b' c' a' b2' l' caching ordering cch' h').1)
              _ _ _ alpha beta cch h

/-- With a remaining depth of 0 a minimax MAX node returns the static
evaluation and leaves the cache untouched, at any fuel. -/
theorem minimaxNodes_limit_zero (R : Rules B) : ∀ (f : Nat) (b : B) (c : Nat)
    (cch : Cache B),
    (minimaxNodes R f).1 b c 0 false cch =
        ((none, XVal.fin (compute_utility R b c)), cch) ∧
      (minimaxNodes R f).2 b c 0 false cch =
        ((none, XVal.fin (compute_utility R b c)), cch) := by
  intro f
  cases f with
  | zero => intro b c cch; exact ⟨rfl, rfl⟩
  | succ g =>
    intro b c cch
    rw [minimaxNodes_succ]
    dsimp only
    constructor
    · unfold minimax_max_body
      simp only [Bool.false_eq_true, if_false]
      rw [if_pos (Or.inr trivial)]
    · unfold minimax_min_body
      simp only [Bool.false_eq_true, if_false]
      rw [if_pos (Or.inr trivial)]

/-- With a remaining depth of 0 an alpha-beta node returns the static
evaluation and leaves the cache untouched, at any fuel, window and ordering. -/
theorem alphabetaNodes_limit_zero (R : Rules B) : ∀ (f : Nat) (b : B)
    (c : Nat) (alpha beta : XVal) (ord : Bool) (cch : Cache B),
    (alphabetaNodes R f).1 b c alpha beta 0 false ord cch =
        ((none, XVal.fin (compute_utility R b c)), cch) ∧
      (alphabetaNodes R f).2 b c alpha beta 0 false ord cch =
        ((none, XVal.fin (compute_utility R b c)), cch) := by
  intro f
  cases f with
  | zero => intro b c alpha beta ord cch; exact ⟨rfl, rfl⟩
  | succ g =>
    intro b c alpha beta ord cch
    rw [alphabetaNodes_succ]
    dsimp only
    constructor
    · unfold alphabeta_max_body
      simp only [Bool.false_eq_true, if_false]
      rw [if_pos (Or.inr trivial)]
    · unfold alphabeta_min_body
      simp only [Bool.false_eq_true, if_false]
      rw [if_pos (Or.inr trivial)]

/-- With `beta = +inf`, a not-yet-infinite `alpha`, and statically evaluated
children, the alpha-beta MAX loop never cuts off and coincides with the
minimax MAX loop. -/
theorem ab_loop_eq_mm_loop_static (R : Rules B) (recMinAB : ABFn B)
    (recMinMM : NodeFn B) (board : B) (color : Nat) (limit : Int)
    (HAB : ∀ (b' : B) (α' β' : XVal) (cch' : Cache B),
      recMinAB b' color α' β' (limit - 1) false false cch' =
        ((none, XVal.fin (compute_utility R b' color)), cch'))
    (HMM : ∀ (b' : B) (cch' : Cache B),
      recMinMM b' color (limit - 1) false cch' =
        ((none, XVal.fin (compute_utility R b' color)), cch')) :
    ∀ (ms : List Mv) (w : Mv) (wv alpha : XVal) (cch : Cache B),
      alpha ≠ XVal.posInf →
      alphabeta_max_loop R recMinAB board color limit false false
          ms w wv alpha XVal.posInf cch =
        minimax_max_loop R recMinMM board color limit false ms w wv cch := by
  intro ms
  induction ms with
  | nil => intro w wv alpha cch _; rfl
  | cons mv rest ih =>
    intro w wv alpha cch ha
    rw [alphabeta_max_loop, minimax_max_loop]
    simp only [Bool.false_eq_true, if_false]
    rw [HAB, HMM]
    dsimp only
    have ha' : XVal.bmax alpha
        (XVal.fin (compute_utility R (R.play_move board color mv.1 mv.2)
          color)) ≠ XVal.posInf :=
      XVal.bmax_ne_posInf ha (XVal.fin_ne_posInf _)
    rw [if_neg (fun hcontra =>
      ha' (XVal.posInf_ble_iff.mp hcontra))]
    exact ih _ _ _ cch ha'

/-- At depth limit 1 with caching and ordering off, the alpha-beta MAX root
node computes exactly the same result as the minimax MAX root node. -/
theorem alphabeta_eq_minimax_limit_one (R : Rules B) (b : B) (c : Nat) :
    alphabeta_max_node R b c XVal.negInf XVal.posInf 1 false false [] =
      minimax_max_node R b c 1 false [] := by
  rw [alphabeta_max_node_eq, minimax_max_node_eq]
  unfold alphabeta_max_body minimax_max_body
  simp only [Bool.false_eq_true, if_false, ite_cond_false]
  by_cases hg : (R.get_possible_moves b c = [] ∨ (1 : Int) = 0)
  · rw [if_pos hg, if_pos hg]
  · rw [if_neg hg, if_neg hg]
    refine ab_loop_eq_mm_loop_static R _ _ b c 1 ?_ ?_ _ _ _ _ _ (by simp)
    · intro b' α' β' cch'
      have h10 : (1 : Int) - 1 = 0 := by norm_num
      rw [h10]
      exact (alphabetaNodes_limit_zero R (R.mes b) b' c α' β' false cch').2
    · intro b' cch'
      have h10 : (1 : Int) - 1 = 0 := by norm_num
      rw [h10]
      exact (minimaxNodes_limit_zero R (R.mes b) b' c cch').2

/-- Greedy characterization of minimax at depth limit 1: the selected move is
a legal move maximizing the immediate static utility of the resulting board. -/
theorem minimax_limit_one_greedy (R : Rules B) (b : B) (c : Nat)
    (hne : R.get_possible_moves b c ≠ []) :
    ∃ m, select_move_minimax R b c 1 false = some m ∧
      m ∈ R.get_possible_moves b c ∧
      ∀ m' ∈ R.get_possible_moves b c,
        compute_utility R (R.play_move b c m'.1 m'.2) c ≤
          compute_utility R (R.play_move b c m.1 m.2) c := by
  have hg : ¬(R.get_possible_moves b c = [] ∨ (1 : Int) = 0) := by
    simp [hne]
  have h10 : (1 : Int) - 1 = 0 := by norm_num
  have Hstep : ∀ m ∈ R.get_possible_moves b c, ∀ cch' : Cache B,
      ((minimaxNodes R (R.mes b)).2 (R.play_move b c m.1 m.2) c
        ((1 : Int) - 1) false cch').1.2 =
      (fun m : Mv => XVal.fin (compute_utility R (R.play_move b c m.1 m.2)
        c)) m := by
    intro m _ cch'
    rw [h10]
    rw [(minimaxNodes_limit_zero R (R.mes b) _ c cch').2]
  obtain ⟨m', heq, hd⟩ := minimax_max_loop_char R (minimaxNodes R (R.mes b)).2
    b c 1
    (fun m : Mv => XVal.fin (compute_utility R (R.play_move b c m.1 m.2) c))
    (R.get_possible_moves b c) Hstep (0, 0) XVal.negInf []
  have hsel : select_move_minimax R b c 1 false = some m' := by
    unfold select_move_minimax
    rw [minimax_max_node_eq]
    unfold minimax_max_body
    simp only [Bool.false_eq_true, if_false]
    rw [if_neg hg, heq]
  refine ⟨m', hsel, ?_, ?_⟩
  · rcases hd with ⟨_, h2⟩ | ⟨h1, _⟩
    · exfalso
      rw [XVal.bmax_negInf_left] at h2
      rcases supList_eq_or (fun m : Mv =>
          XVal.fin (compute_utility R (R.play_move b c m.1 m.2) c))
          (R.get_possible_moves b c) with hs | ⟨m1, hm1, hs⟩
      · obtain ⟨m0, hm0⟩ := List.exists_mem_of_ne_nil _ hne
        have := ble_supList_of_mem (f := fun m : Mv =>
          XVal.fin (compute_utility R (R.play_move b c m.1 m.2) c)) hm0
        rw [hs] at this
        simp [XVal.ble] at this
      · rw [h2] at hs
        exact absurd hs.symm (XVal.fin_ne_negInf _)
    · exact h1
  · intro m'' hm''
    have hle := ble_supList_of_mem (f := fun m : Mv =>
      XVal.fin (compute_utility R (R.play_move b c m.1 m.2) c)) hm''
    rcases hd with ⟨_, h2⟩ | ⟨_, h2⟩
    · exfalso
      rw [XVal.bmax_negInf_left] at h2
      rcases supList_eq_or (fun m : Mv =>
          XVal.fin (compute_utility R (R.play_move b c m.1 m.2) c))
          (R.get_possible_moves b c) with hs | ⟨m1, hm1, hs⟩
      · obtain ⟨m0, hm0⟩ := List.exists_mem_of_ne_nil _ hne
        have := ble_supList_of_mem (f := fun m : Mv =>
          XVal.fin (compute_utility R (R.play_move b c m.1 m.2) c)) hm0
        rw [hs] at this
        simp [XVal.ble] at this
      · rw [h2] at hs
        exact absurd hs.symm (XVal.fin_ne_negInf _)
    · rw [XVal.bmax_negInf_left] at h2
      rw [h2] at hle
      exact XVal.ble_fin_fin.mp hle

/-- Node function `minimax_max_node` returns the value-only static pair exactly at
terminal or depth-exhausted nodes (assuming no cache hit masks it). -/
theorem minimax_max_terminal_iff (R : Rules B) (b : B) (c : Nat) (l : Int)
    (caching : Bool) (cch : Cache B)
    (h : caching = true → lookupC cch b = none) :
    (minimax_max_node R b c l caching cch).1 =
        (none, XVal.fin (compute_utility R b c)) ↔
      (R.get_possible_moves b c = [] ∨ l = 0) := by
  have hsc : (if caching = true then lookupC cch b else none) = none := by
    cases caching
    · rfl
    · exact h rfl
  rw [minimax_max_node_eq]
  unfold minimax_max_body
  rw [hsc]
  constructor
  · intro heq
    by_contra hg
    rw [if_neg hg] at heq
    obtain ⟨m, v, hmv⟩ := minimax_max_loop_isSome R (minimaxNodes R
      (R.mes b)).2 b c l caching (R.get_possible_moves b c) (0, 0)
      XVal.negInf cch
    rw [hmv] at heq
    simp at heq
  · intro hg
    rw [if_pos hg]

/-- The `minimax_min_node` analogue of `minimax_max_terminal_iff`. -/
theorem minimax_min_terminal_iff (R : Rules B) (b : B) (c : Nat) (l : Int)
    (caching : Bool) (cch : Cache B)
    (h : caching = true → lookupC cch b = none) :
    (minimax_min_node R b c l caching cch).1 =
        (none, XVal.fin (compute_utility R b c)) ↔
      (R.get_possible_moves b (if c = 2 then 1 else 2) = [] ∨ l = 0) := by
  have hsc : (if caching = true then lookupC cch b else none) = none := by
    cases caching
    · rfl
    · exact h rfl
  rw [minimax_min_node_eq]
  unfold minimax_min_body
  rw [hsc]
  constructor
  · intro heq
    by_contra hg
    rw [if_neg hg] at heq
    obtain ⟨m, v, hmv⟩ := minimax_min_loop_isSome R (minimaxNodes R
      (R.mes b)).1 b (if c = 2 then 1 else 2) c l caching
      (R.get_possible_moves b (if c = 2 then 1 else 2)) (0, 0)
      XVal.posInf cch
    rw [hmv] at heq
    simp at heq
  · intro hg
    rw [if_pos hg]

/-- Emptiness of the (possibly ordered) move list coincides with emptiness
of the raw legal-move list. -/
theorem possAB_eq_nil_iff (R : Rules B) (b : B) (mover mx : Nat)
    (ord : Bool) :
    ((if ord = true then order_moves R b mover mx
      else R.get_possible_moves b mover) = []) ↔
      R.get_possible_moves b mover = [] := by
  cases ord
  · simp
  · simpa using order_moves_eq_nil_iff R b mover mx

/-- The `alphabeta_max_node` analogue of `minimax_max_terminal_iff`. -/
theorem alphabeta_max_terminal_iff (R : Rules B) (b : B) (c : Nat)
    (alpha beta : XVal) (l : Int) (caching ord : Bool) (cch : Cache B)
    (h : caching = true → lookupC cch b = none) :
    (alphabeta_max_node R b c alpha beta l caching ord cch).1 =
        (none, XVal.fin (compute_utility R b c)) ↔
      (R.get_possible_moves b c = [] ∨ l = 0) := by
  have hsc : (if caching = true then lookupC cch b else none) = none := by
    cases caching
    · rfl
    · exact h rfl
  have hiff := possAB_eq_nil_iff R b c c ord
  rw [alphabeta_max_node_eq]
  unfold alphabeta_max_body
  rw [hsc]
  constructor
  · intro heq
    by_contra hg
    have hg2 : ¬((if ord = true then order_moves R b c c
        else R.get_possible_moves b c) = [] ∨ l = 0) :=
      fun hcontra => hg (hcontra.elim (fun he => Or.inl (hiff.mp he)) Or.inr)
    rw [if_neg hg2] at heq
    obtain ⟨m, v, hmv⟩ := alphabeta_max_loop_isSome R (alphabetaNodes R
      (R.mes b)).2 b c l caching ord _ (0, 0) XVal.negInf alpha beta cch
    rw [hmv] at heq
    simp at heq
  · intro hg
    rw [if_pos (hg.elim (fun he => Or.inl (hiff.mpr he)) Or.inr)]

/-- The `alphabeta_min_node` analogue of `minimax_min_terminal_iff`. -/
theorem alphabeta_min_terminal_iff (R : Rules B) (b : B) (c : Nat)
    (alpha beta : XVal) (l : Int) (caching ord : Bool) (cch : Cache B)
    (h : caching = true → lookupC cch b = none) :
    (alphabeta_min_node R b c alpha beta l caching ord cch).1 =
        (none, XVal.fin (compute_utility R b c)) ↔
      (R.get_possible_moves b (if c = 2 then 1 else 2) = [] ∨ l = 0) := by
  have hsc : (if caching = true then lookupC cch b else none) = none := by
    cases caching
    · rfl
    · exact h rfl
  have hiff := possAB_eq_nil_iff R b (if c = 2 then 1 else 2) c ord
  rw [alphabeta_min_node_eq]
  unfold alphabeta_min_body
  rw [hsc]
  constructor
  · intro heq
    by_contra hg
    have hg2 : ¬((if ord = true then
        order_moves R b (if c = 2 then 1 else 2) c
        else R.get_possible_moves b (if c = 2 then 1 else 2)) = [] ∨
        l = 0) :=
      fun hcontra => hg (hcontra.elim (fun he => Or.inl (hiff.mp he)) Or.inr)
    rw [if_neg hg2] at heq
    obtain ⟨m, v, hmv⟩ := alphabeta_min_loop_isSome R (alphabetaNodes R
      (R.mes b)).1 b (if c = 2 then 1 else 2) c l caching ord _ (0, 0)
      XVal.posInf alpha beta cch
    rw [hmv] at heq
    simp at heq
  · intro hg
    rw [if_pos (hg.elim (fun he => Or.inl (hiff.mpr he)) Or.inr)]

/-- The root alpha-beta value launched with the window `(-inf, +inf)` equals
the exact minimax value, with caching off, for either ordering flag. -/
theorem alphabeta_value_eq_minimax (R : Rules B) (b : B) (c : Nat) (l : Int)
    (ord : Bool) :
    ((alphabeta_max_node R b c XVal.negInf XVal.posInf l false ord []).1).2 =
      ((minimax_max_node R b c l false []).1).2 := by
  have hf : R.mes b < R.mes b + 1 := Nat.lt_succ_self _
  have hab : XVal.blt XVal.negInf XVal.posInf = true := rfl
  have hkm := (alphabeta_km R (R.mes b + 1) b c l XVal.negInf XVal.posInf ord
    hf hab).1
  show ((alphabetaNodes R (R.mes b + 1)).1 b c XVal.negInf XVal.posInf l
      false ord []).1.2 =
    ((minimaxNodes R (R.mes b + 1)).1 b c l false []).1.2
  by_cases hg : (R.get_possible_moves b c = [] ∨ l = 0)
  · rw [(alphabetaNodes_shape R (R.mes b + 1) b c XVal.negInf XVal.posInf l
      ord hf).1.1 hg]
    rw [(minimaxNodes_shape R (R.mes b + 1) b c l hf).1.1 hg]
  · obtain ⟨mA, zA, hA, _⟩ := (alphabetaNodes_shape R (R.mes b + 1) b c
      XVal.negInf XVal.posInf l ord hf).1.2 hg
    obtain ⟨mM, zM, hM, _⟩ := (minimaxNodes_shape R (R.mes b + 1) b c l
      hf).1.2 hg
    have hVA : ((alphabetaNodes R (R.mes b + 1)).1 b c XVal.negInf
        XVal.posInf l false ord []).1.2 = XVal.fin zA := by rw [hA]
    have hVM : ((minimaxNodes R (R.mes b + 1)).1 b c l false []).1.2 =
        XVal.fin zM := by rw [hM]
    rw [hVA, hVM] at hkm
    rw [hVA, hVM]
    exact hkm.2.2 (XVal.blt_negInf_fin zA) (XVal.blt_fin_posInf zA)

end SearchLemmas

/-! ### Claims -/

section Claims

variable {B : Type} [DecidableEq B]

/-- C1: for every board, color and depth limit, with caching off, the value
component computed by `alphabeta_max_node` at the root — launched as
`select_move_alphabeta` does, with the initial window `(-inf, +inf)` and a
cleared cache — equals the value component computed by `minimax_max_node`,
so alpha-beta pruning never loses the true minimax value and the moves
returned by the two selectors have identical utility value. -/
theorem C1_minimax_alphabeta_value_equivalence (R : Rules B) (b : B)
    (c : Nat) (l : Int) (ord : Bool) :
    ((alphabeta_max_node R b c XVal.negInf XVal.posInf l false ord []).1).2 =
      ((minimax_max_node R b c l false []).1).2 :=
  alphabeta_value_eq_minimax R b c l ord

/-- C2 (counterexample): on the toy adapter, the board `b10` has legal moves
for color 1, yet both selectors called with depth limit 0 return the null
sentinel rather than the greedy utility-maximizing legal move. -/
theorem C2_depth_zero_counterexample :
    select_move_minimax Toy TB.b10 1 0 false = none ∧
      select_move_alphabeta Toy TB.b10 1 0 false false = none ∧
      Toy.get_possible_moves TB.b10 1 ≠ [] := by
  refine ⟨by decide, by decide, by decide⟩

/-- C2 (amended): with depth limit 0 both selectors return the null
sentinel, for every caching and ordering setting; the one-ply greedy
selection described by the claim is what depth limit 1 computes: with
caching and ordering off both selectors return the same legal move, one
maximizing the immediate static utility of the resulting board. -/
theorem C2_depth_zero_sentinel_depth_one_greedy (R : Rules B) (b : B)
    (c : Nat) (caching ord : Bool) :
    select_move_minimax R b c 0 caching = none ∧
    select_move_alphabeta R b c 0 caching ord = none ∧
    (R.get_possible_moves b c ≠ [] →
      ∃ m, select_move_minimax R b c 1 false = some m ∧
        select_move_alphabeta R b c 1 false false = some m ∧
        m ∈ R.get_possible_moves b c ∧
        ∀ m' ∈ R.get_possible_moves b c,
          compute_utility R (R.play_move b c m'.1 m'.2) c ≤
            compute_utility R (R.play_move b c m.1 m.2) c) := by
  refine ⟨?_, ?_, ?_⟩
  · have h0 := (minimax_max_terminal_iff R b c 0 caching []
      (fun _ => rfl)).mpr (Or.inr rfl)
    unfold select_move_minimax
    rw [h0]
  · have h0 := (alphabeta_max_terminal_iff R b c XVal.negInf XVal.posInf 0
      caching ord [] (fun _ => rfl)).mpr (Or.inr rfl)
    unfold select_move_alphabeta
    rw [h0]
  · intro hne
    obtain ⟨m, h1, h2, h3⟩ := minimax_limit_one_greedy R b c hne
    have heq : select_move_alphabeta R b c 1 false false =
        select_move_minimax R b c 1 false := by
      unfold select_move_alphabeta select_move_minimax
      rw [alphabeta_eq_minimax_limit_one]
    exact ⟨m, h1, by rw [heq, h1], h2, h3⟩

/-- C2 (witness): the amended claim applied to the toy adapter at `b10`,
where the greedy move exists because the move list is non-empty. -/
theorem C2_depth_zero_amended_witness :
    Toy.get_possible_moves TB.b10 1 ≠ [] ∧
    select_move_minimax Toy TB.b10 1 0 false = none ∧
    (∃ m, select_move_minimax Toy TB.b10 1 1 false = some m ∧
      select_move_alphabeta Toy TB.b10 1 1 false false = some m ∧
      m ∈ Toy.get_possible_moves TB.b10 1 ∧
      ∀ m' ∈ Toy.get_possible_moves TB.b10 1,
        compute_utility Toy (Toy.play_move TB.b10 1 m'.1 m'.2) 1 ≤
          compute_utility Toy (Toy.play_move TB.b10 1 m.1 m.2) 1) :=
  ⟨by decide,
    (C2_depth_zero_sentinel_depth_one_greedy Toy TB.b10 1 false false).1,
    (C2_depth_zero_sentinel_depth_one_greedy Toy TB.b10 1 false
      false).2.2 (by decide)⟩

/-- C3 (counterexample): with caching on, move ordering changes the root
value (and the returned move): on the toy adapter at depth limit 2, the
unordered search returns value 5 and move (0,0) while the ordered search
returns value 0 and move (1,1), because ordering changes which transposition
is cached first and a later cache hit truncates the deeper search. -/
theorem C3_ordering_caching_counterexample :
    (alphabeta_max_node Toy TB.b10 1 XVal.negInf XVal.posInf 2 true false
        []).1.2 = XVal.fin 5 ∧
    (alphabeta_max_node Toy TB.b10 1 XVal.negInf XVal.posInf 2 true true
        []).1.2 = XVal.fin 0 ∧
    (alphabeta_max_node Toy TB.b10 1 XVal.negInf XVal.posInf 2 true false
        []).1.2 ≠
      (alphabeta_max_node Toy TB.b10 1 XVal.negInf XVal.posInf 2 true true
        []).1.2 ∧
    select_move_alphabeta Toy TB.b10 1 2 true false = some (0, 0) ∧
    select_move_alphabeta Toy TB.b10 1 2 true true = some (1, 1) := by
  refine ⟨by decide, by decide, by decide, by decide, by decide⟩

/-- C3 (amended): with caching off, `select_move_alphabeta` with
`ordering = 0` and with `ordering = 1` return moves of identical utility
value — the root value component is the same for both ordering settings,
for every board, color and depth limit. -/
theorem C3_ordering_value_equivalence_caching_off (R : Rules B) (b : B)
    (c : Nat) (l : Int) :
    ((alphabeta_max_node R b c XVal.negInf XVal.posInf l false false
        []).1).2 =
      ((alphabeta_max_node R b c XVal.negInf XVal.posInf l false true
        []).1).2 :=
  (alphabeta_value_eq_minimax R b c l false).trans
    (alphabeta_value_eq_minimax R b c l true).symm

/-- C4: each node function returns `(null move, compute_utility(board,
root color))` — the static evaluation from the root maximizer's perspective
— exactly when the player to move there has no legal moves or the remaining
depth is 0, provided no transposition-cache hit intervenes. -/
theorem C4_terminal_static_iff (R : Rules B) (b : B) (c : Nat) (l : Int)
    (alpha beta : XVal) (caching ord : Bool) (cch : Cache B)
    (h : caching = true → lookupC cch b = none) :
    ((minimax_max_node R b c l caching cch).1 =
        (none, XVal.fin (compute_utility R b c)) ↔
      (R.get_possible_moves b c = [] ∨ l = 0)) ∧
    ((minimax_min_node R b c l caching cch).1 =
        (none, XVal.fin (compute_utility R b c)) ↔
      (R.get_possible_moves b (if c = 2 then 1 else 2) = [] ∨ l = 0)) ∧
    ((alphabeta_max_node R b c alpha beta l caching ord cch).1 =
        (none, XVal.fin (compute_utility R b c)) ↔
      (R.get_possible_moves b c = [] ∨ l = 0)) ∧
    ((alphabeta_min_node R b c alpha beta l caching ord cch).1 =
        (none, XVal.fin (compute_utility R b c)) ↔
      (R.get_possible_moves b (if c = 2 then 1 else 2) = [] ∨ l = 0)) :=
  ⟨minimax_max_terminal_iff R b c l caching cch h,
    minimax_min_terminal_iff R b c l caching cch h,
    alphabeta_max_terminal_iff R b c alpha beta l caching ord cch h,
    alphabeta_min_terminal_iff R b c alpha beta l caching ord cch h⟩

/-- C4 (witness): the terminal characterization applied to the toy adapter
at `b7` with depth 0, where the node is depth-exhausted and the cache-miss
hypothesis holds for the empty cache. -/
theorem C4_terminal_static_iff_witness :
    (false = true → lookupC ([] : Cache TB) TB.b7 = none) ∧
    ((minimax_max_node Toy TB.b7 1 0 false []).1 =
        (none, XVal.fin (compute_utility Toy TB.b7 1)) ↔
      (Toy.get_possible_moves TB.b7 1 = [] ∨ (0 : Int) = 0)) :=
  ⟨fun _ => rfl,
    (C4_terminal_static_iff Toy TB.b7 1 0 XVal.negInf XVal.posInf false
      false [] (fun _ => rfl)).1⟩

/-- C5: if the root player has zero legal moves, both selectors return the
null sentinel `none`, distinguishable from every normal move, without
raising an error. -/
theorem C5_no_moves_sentinel (R : Rules B) (b : B) (c : Nat) (l : Int)
    (caching ord : Bool) (h : R.get_possible_moves b c = []) :
    select_move_minimax R b c l caching = none ∧
    select_move_alphabeta R b c l caching ord = none ∧
    ∀ m : Mv, select_move_minimax R b c l caching ≠ some m := by
  have h1 := (minimax_max_terminal_iff R b c l caching []
    (fun _ => rfl)).mpr (Or.inl h)
  have h2 := (alphabeta_max_terminal_iff R b c XVal.negInf XVal.posInf l
    caching ord [] (fun _ => rfl)).mpr (Or.inl h)
  refine ⟨?_, ?_, ?_⟩
  · unfold select_move_minimax
    rw [h1]
  · unfold select_move_alphabeta
    rw [h2]
  · intro m
    unfold select_move_minimax
    rw [h1]
    simp

/-- C5 (witness): the sentinel behavior on the toy adapter at the moveless
board `bz`. -/
theorem C5_no_moves_sentinel_witness :
    Toy.get_possible_moves TB.bz 1 = [] ∧
    select_move_minimax Toy TB.bz 1 5 true = none :=
  ⟨by decide, (C5_no_moves_sentinel Toy TB.bz 1 5 true true (by decide)).1⟩

/-- C6 (counterexample): during a caching minimax search from `b10` at
depth 1, the cache maps the child board `b7` to the pair (edge move (1,1),
value 5), whereas the node function evaluating `b7` itself returns the pair
(null move, value 5) — the cached move component is the move leading into
`b7`, not `b7`'s own search result. -/
theorem C6_cache_entry_counterexample :
    lookupC (minimax_max_node Toy TB.b10 1 1 true []).2 TB.b7 =
        some (some (1, 1), XVal.fin 5) ∧
    (minimax_min_node Toy TB.b7 1 0 true []).1 = (none, XVal.fin 5) ∧
    ((some ((1, 1) : Mv), XVal.fin 5) : Res) ≠ (none, XVal.fin 5) := by
  refine ⟨by decide, by decide, by decide⟩

/-- C6 (amended): every transposition-cache entry written during a search
maps a child board to the pair (the move by which the parent reached that
child, the value just computed for that child); in particular the move
component of every cache entry is a non-null move — never the null
sentinel, even for terminal or depth-exhausted children — so the invariant
that cache entries carry non-null moves is preserved by all four node
functions. -/
theorem C6_cache_moves_never_null (R : Rules B) (b : B) (c : Nat) (l : Int)
    (alpha beta : XVal) (caching ord : Bool) (cch : Cache B)
    (h : GoodCache cch) :
    GoodCache (minimax_max_node R b c l caching cch).2 ∧
    GoodCache (minimax_min_node R b c l caching cch).2 ∧
    GoodCache (alphabeta_max_node R b c alpha beta l caching ord cch).2 ∧
    GoodCache (alphabeta_min_node R b c alpha beta l caching ord cch).2 :=
  ⟨(minimaxNodes_good R (R.mes b + 1) b c l caching cch h).1,
    (minimaxNodes_good R (R.mes b + 1) b c l caching cch h).2,
    (alphabetaNodes_good R (R.mes b + 1) b c alpha beta l caching ord
      cch h).1,
    (alphabetaNodes_good R (R.mes b + 1) b c alpha beta l caching ord
      cch h).2⟩

/-- C6 (witness): the non-null invariant applied to a caching search on the
toy adapter starting from the empty cache. -/
theorem C6_cache_moves_never_null_witness :
    GoodCache (minimax_max_node Toy TB.b10 1 1 true []).2 :=
  (C6_cache_moves_never_null Toy TB.b10 1 1 XVal.negInf XVal.posInf true
    true [] GoodCache_nil).1

/-- C7: the utility is the signed disk-count difference reported by
`get_score` from the perspective of the given color, and it is antisymmetric
in the color argument: `compute_utility(board, 1) = -compute_utility(board,
2)` for every board. -/
theorem C7_utility_antisymmetry (R : Rules B) (b : B) :
    compute_utility R b 1 = (R.get_score b).1 - (R.get_score b).2 ∧
    compute_utility R b 2 = (R.get_score b).2 - (R.get_score b).1 ∧
    compute_utility R b 1 = -compute_utility R b 2 := by
  unfold compute_utility
  norm_num

/-- C8: with the unlimited-depth sentinel `-1`, the depth-exhaustion guard
(`limit == 0`) never fires: the search returns the static evaluation
exactly at positions where the mover has no legal moves, and the search is
identical for every negative limit (all negative limits mean "recurse until
no legal moves remain"); termination is witnessed by the functions being
total over every finite game tree the rules adapter supplies. -/
theorem C8_unlimited_depth (R : Rules B) (b : B) (c : Nat) (cch : Cache B)
    (caching : Bool) (l1 l2 : Int) (h1 : l1 < 0) (h2 : l2 < 0) :
    ((minimax_max_node R b c (-1) false cch).1 =
        (none, XVal.fin (compute_utility R b c)) ↔
      R.get_possible_moves b c = []) ∧
    ((minimax_min_node R b c (-1) false cch).1 =
        (none, XVal.fin (compute_utility R b c)) ↔
      R.get_possible_moves b (if c = 2 then 1 else 2) = []) ∧
    minimax_max_node R b c l1 caching cch =
      minimax_max_node R b c l2 caching cch ∧
    minimax_min_node R b c l1 caching cch =
      minimax_min_node R b c l2 caching cch ∧
    (∀ (alpha beta : XVal) (ord : Bool),
      alphabeta_max_node R b c alpha beta l1 caching ord cch =
        alphabeta_max_node R b c alpha beta l2 caching ord cch) ∧
    (∀ (alpha beta : XVal) (ord : Bool),
      alphabeta_min_node R b c alpha beta l1 caching ord cch =
        alphabeta_min_node R b c alpha beta l2 caching ord cch) := by
  refine ⟨?_, ?_, ?_, ?_, ?_, ?_⟩
  · exact (minimax_max_terminal_iff R b c (-1) false cch
      (fun hc => nomatch hc)).trans
      (or_iff_left (by norm_num))
  · exact (minimax_min_terminal_iff R b c (-1) false cch
      (fun hc => nomatch hc)).trans
      (or_iff_left (by norm_num))
  · exact (minimaxNodes_neg_limit R (R.mes b + 1) b c l1 l2 caching cch
      h1 h2).1
  · exact (minimaxNodes_neg_limit R (R.mes b + 1) b c l1 l2 caching cch
      h1 h2).2
  · intro alpha beta ord
    exact (alphabetaNodes_neg_limit R (R.mes b + 1) b c alpha beta l1 l2
      caching ord cch h1 h2).1
  · intro alpha beta ord
    exact (alphabetaNodes_neg_limit R (R.mes b + 1) b c alpha beta l1 l2
      caching ord cch h1 h2).2

/-- C8 (witness): the unlimited-depth behavior on the toy adapter with the
sentinel `-1` against another negative limit `-2`. -/
theorem C8_unlimited_depth_witness :
    ((-1 : Int) < 0 ∧ (-2 : Int) < 0) ∧
    minimax_max_node Toy TB.b10 1 (-1) false [] =
      minimax_max_node Toy TB.b10 1 (-2) false [] :=
  ⟨⟨by norm_num, by norm_num⟩,
    (C8_unlimited_depth Toy TB.b10 1 [] false (-1) (-2) (by norm_num)
      (by norm_num)).2.2.1⟩

/-- C9: with caching off (`caching = 0`), no node function reads or writes
the transposition cache: each returns the cache it was given unchanged, and
its result is the one computed from the empty cache, so the cache contents
have no effect on the returned (move, value) pair. -/
theorem C9_cache_untouched_when_caching_off (R : Rules B) (b : B) (c : Nat)
    (l : Int) (alpha beta : XVal) (ord : Bool) (cch : Cache B) :
    minimax_max_node R b c l false cch =
        ((minimax_max_node R b c l false []).1, cch) ∧
    minimax_min_node R b c l false cch =
        ((minimax_min_node R b c l false []).1, cch) ∧
    alphabeta_max_node R b c alpha beta l false ord cch =
        ((alphabeta_max_node R b c alpha beta l false ord []).1, cch) ∧
    alphabeta_min_node R b c alpha beta l false ord cch =
        ((alphabeta_min_node R b c alpha beta l false ord []).1, cch) :=
  ⟨(minimaxNodes_frame R (R.mes b + 1) b c l cch).1,
    (minimaxNodes_frame R (R.mes b + 1) b c l cch).2,
    (alphabetaNodes_frame R (R.mes b + 1) b c alpha beta l ord cch).1,
    (alphabetaNodes_frame R (R.mes b + 1) b c alpha beta l ord cch).2⟩

/-- C10: with caching off, whenever the root player has at least one legal
move and the depth limit is non-zero (so the selection loop actually runs),
both selectors return a legal move of the root player: the `(0, 0)`
initializer of the best-move accumulator is always overwritten because
every child utility is a finite value and so strictly exceeds the `-inf`
initial best value. -/
theorem C10_selected_move_legal (R : Rules B) (b : B) (c : Nat) (l : Int)
    (ord : Bool) (h1 : R.get_possible_moves b c ≠ []) (h2 : l ≠ 0) :
    (∃ m, select_move_minimax R b c l false = some m ∧
      m ∈ R.get_possible_moves b c) ∧
    (∃ m, select_move_alphabeta R b c l false ord = some m ∧
      m ∈ R.get_possible_moves b c) := by
  have hf : R.mes b < R.mes b + 1 := Nat.lt_succ_self _
  have hg : ¬(R.get_possible_moves b c = [] ∨ l = 0) :=
    fun hcontra => hcontra.elim h1 h2
  constructor
  · obtain ⟨m, z, hmz, hmem⟩ := (minimaxNodes_shape R (R.mes b + 1) b c l
      hf).1.2 hg
    refine ⟨m, ?_, hmem⟩
    show ((minimaxNodes R (R.mes b + 1)).1 b c l false []).1.1 = some m
    rw [hmz]
  · obtain ⟨m, z, hmz, hmem⟩ := (alphabetaNodes_shape R (R.mes b + 1) b c
      XVal.negInf XVal.posInf l ord hf).1.2 hg
    refine ⟨m, ?_, hmem⟩
    show ((alphabetaNodes R (R.mes b + 1)).1 b c XVal.negInf XVal.posInf l
      false ord []).1.1 = some m
    rw [hmz]

/-- C10 (witness): the legality of the selected move on the toy adapter at
depth 1. -/
theorem C10_selected_move_legal_witness :
    Toy.get_possible_moves TB.b10 1 ≠ [] ∧ (1 : Int) ≠ 0 ∧
    (∃ m, select_move_minimax Toy TB.b10 1 1 false = some m ∧
      m ∈ Toy.get_possible_moves TB.b10 1) :=
  ⟨by decide, by norm_num,
    (C10_selected_move_legal Toy TB.b10 1 1 true (by decide)
      (by norm_num)).1⟩

end Claims

end Othello
